import Mathlib

/-!
# mastodon-json-blocklist: sanitizer, translator and reconciler

A shallow embedding of `internal/data/data.go` (`Sanitize`) and
`internal/mastodon/mastodon.go` (`translateData`, `differs`, the three
mutation calls, `getDomainBlocks`, `syncInternalData`, `SyncData`).

Conventions of the embedding.

* A Go pointer `*DomainBlock` that may be nil is an `Option`; dereferencing
  nil is the explicit outcome `none` (in `Sanitize`, `translateData`) or
  `Outcome.nilDereference` (in `syncInternalData`).  The JSON decoder
  allocates every element separately, so no two entries alias and blocks are
  modelled as values.
* A Go `map[string]*DomainBlock` is an association list with distinct keys
  (`GoMap`).  The order in which `range` visits a map is not fixed by the
  language; it is a parameter (`RangeOrder`), any permutation of the entries.
* The remote side is a `Remote`: how the answer to the list request is
  decoded, the answer to the list request, and the answer to the k-th
  mutation request.  A transport answer is either an error (request could not
  be built or sent) or a `Response`.
* `syncInternalData` returns the calls it attempted, in order, next to its
  result.
-/

/-! ## The Go standard-library string functions used by `Sanitize` -/

namespace strings

/-- Go `unicode.IsSpace`: the Unicode White_Space code points. -/
def isSpace (c : Char) : Bool :=
  let n := c.toNat
  (9 ≤ n && n ≤ 13) || n == 32 || n == 133 || n == 160 || n == 5760 ||
  (8192 ≤ n && n ≤ 8202) || n == 8232 || n == 8233 || n == 8239 || n == 8287 ||
  n == 12288

/-- Go `strings.TrimSpace`: drop leading and trailing white space. -/
def TrimSpace (s : String) : String :=
  String.mk ((s.toList.dropWhile isSpace).reverse.dropWhile isSpace).reverse

/-- Go `strings.ToLower`, on the ASCII letters.  (Go also maps the upper-case
letters outside ASCII; every string evaluated below is ASCII, and no general
result depends on how a letter is mapped.) -/
def ToLower (s : String) : String :=
  String.mk (s.toList.map Char.toLower)

/-- Go `strings.Contains s substr`. -/
def Contains (s substr : String) : Bool :=
  decide (substr.toList <:+: s.toList)

end strings

/-! ## `internal/data` -/

namespace data

/-- Type `data.DomainBlock`: one rule of the feed. `BlockSeverity` is a string type. -/
structure DomainBlock where
  Domains : List String
  Severity : String
  RejectMedia : Bool
  RejectReports : Bool
  Reason : String
deriving DecidableEq, Repr

/-- Type `data.Data`: the decoded feed, a slice of possibly-nil rule pointers. -/
structure Data where
  DomainBlocks : List (Option DomainBlock)
deriving DecidableEq, Repr

def BlockSeveritySilence : String := "silence"
def BlockSeveritySuspend : String := "suspend"
def BlockSeverityNone : String := "none"

/-- The inner loop of `Sanitize` (data.go lines 61-71) over the domains of one
rule: returns the local slice `domains` and the updated set `usedDomains`. -/
def filterDomains : List String → List String → List String → List String × List String
  | [], domains, usedDomains => (domains, usedDomains)
  | domain :: rest, domains, usedDomains =>
    let domain := strings.TrimSpace (strings.ToLower domain)
    if !strings.Contains domain "." then
      filterDomains rest domains usedDomains
    else if !usedDomains.contains domain then
      filterDomains rest (domains ++ [domain]) (domain :: usedDomains)
    else
      filterDomains rest domains usedDomains

/-- Lines 76-78: an unknown severity is replaced by `none`, in place. -/
def fixSeverity (block : DomainBlock) : DomainBlock :=
  if block.Severity ≠ BlockSeveritySuspend ∧ block.Severity ≠ BlockSeveritySilence
      ∧ block.Severity ≠ BlockSeverityNone then
    { block with Severity := BlockSeverityNone }
  else block

/-- The outer loop of `Sanitize` (lines 58-81) over the rules in the order it
visits them (last declared first).  `none` is the nil dereference at
`block.Domains`.  The slice `domains` built by the inner loop is never read
again by the source: the rule appended to `blocks` is `block` itself. -/
def sanitizeLoop : List (Option DomainBlock) → List String → List DomainBlock →
    Option (List DomainBlock)
  | [], _, blocks => some blocks
  | none :: _, _, _ => none
  | some block :: rest, usedDomains, blocks =>
    let usedDomains := (filterDomains block.Domains [] usedDomains).2
    if block.Domains.length = 0 then
      sanitizeLoop rest usedDomains blocks
    else
      sanitizeLoop rest usedDomains (blocks ++ [fixSeverity block])

/-- Method `(*Data).Sanitize`: the new value of `data`, or `none` when it panics. -/
def Sanitize (data : Data) : Option Data :=
  (sanitizeLoop data.DomainBlocks.reverse [] []).map
    (fun blocks => { DomainBlocks := blocks.map some })

/-- The (domain, rule content) pairs a rule list stands for: each listed
domain of each rule, with the severity, reject-media, reject-reports and
reason of that rule. -/
def ruleMappings (d : Data) : List (String × String × Bool × Bool × String) :=
  d.DomainBlocks.flatMap (fun o =>
    match o with
    | none => []
    | some r =>
      r.Domains.map (fun x => (x, r.Severity, r.RejectMedia, r.RejectReports, r.Reason)))

end data

/-! ## `internal/mastodon` -/

namespace mastodon

/-- Type `mastodon.DomainBlock`: a flat block, with the remote identifier. -/
structure DomainBlock where
  ID : String
  Domain : String
  Severity : String
  RejectMedia : Bool
  RejectReports : Bool
  PublicComment : String
deriving DecidableEq, Repr

/-- What `http.DefaultClient.Do` hands back on success. -/
structure Response where
  StatusCode : Int
  Body : String
deriving DecidableEq, Repr

/-- The answer to one request: an error (the request could not be built or
sent) or a response. -/
abbrev Transport := Except String Response

/-- A mutation request, with exactly the fields its form and URL carry. -/
inductive Call where
  | create (domain severity : String) (rejectMedia rejectReports : Bool)
      (publicComment : String)
  | update (id severity : String) (rejectMedia rejectReports : Bool)
      (publicComment : String)
  | delete (id : String)
deriving DecidableEq, Repr

/-- The remote side, as seen by one cycle. -/
structure Remote where
  /-- Go `json.Unmarshal` of the list answer into `[]*DomainBlock`. -/
  decode : String → Except String (List (Option DomainBlock))
  /-- The answer to `GET /api/v1/admin/domain_blocks`. -/
  list : Transport
  /-- The answer to the mutation request made after `k` earlier ones. -/
  mutation : Nat → Transport

/-- The loop of `translateData` over the rules; `none` is the nil dereference
at `rawBlock.Domains`. -/
def translateLoop : List (Option data.DomainBlock) → List DomainBlock →
    Option (List DomainBlock)
  | [], blocks => some blocks
  | none :: _, _ => none
  | some rawBlock :: rest, blocks =>
    translateLoop rest (blocks ++ rawBlock.Domains.map (fun domain =>
      { ID := ""
        Domain := domain
        Severity := rawBlock.Severity
        RejectMedia := rawBlock.RejectMedia
        RejectReports := rawBlock.RejectReports
        PublicComment := rawBlock.Reason }))

/-- Function `translateData`: one flat block per listed domain. -/
def translateData (raw : data.Data) : Option (List DomainBlock) :=
  translateLoop raw.DomainBlocks []

/-- Function `differs`: severity, the two flags and the comment are compared. -/
def differs (a b : DomainBlock) : Bool :=
  a.Severity != b.Severity || a.RejectMedia != b.RejectMedia ||
    a.RejectReports != b.RejectReports || a.PublicComment != b.PublicComment

/-- Method `getDomainBlocks`: the status code of the answer is not looked at. -/
def getDomainBlocks (remote : Remote) : Except String (List (Option DomainBlock)) :=
  match remote.list with
  | .error err => .error err
  | .ok response => remote.decode response.Body

/-- The common tail of the three mutation calls: the error they return
(`none` is a nil error). -/
def callResult (t : Transport) : Option String :=
  match t with
  | .error err => some err
  | .ok resp =>
    if resp.StatusCode < 200 ∨ resp.StatusCode > 299 then
      some (toString resp.StatusCode ++ ": " ++ resp.Body)
    else none

/-- Method `createDomainBlock`, as the mutation request made after `k` earlier ones. -/
def createDomainBlock (remote : Remote) (k : Nat) (block : DomainBlock) :
    Call × Option String :=
  (Call.create block.Domain block.Severity block.RejectMedia block.RejectReports
    block.PublicComment, callResult (remote.mutation k))

/-- Method `updateDomainBlock`, as the mutation request made after `k` earlier ones. -/
def updateDomainBlock (remote : Remote) (k : Nat) (id : String) (block : DomainBlock) :
    Call × Option String :=
  (Call.update id block.Severity block.RejectMedia block.RejectReports
    block.PublicComment, callResult (remote.mutation k))

/-- Method `deleteDomainBlock`, as the mutation request made after `k` earlier ones. -/
def deleteDomainBlock (remote : Remote) (k : Nat) (id : String) : Call × Option String :=
  (Call.delete id, callResult (remote.mutation k))

/-- A Go `map[string]*DomainBlock` whose values are never nil. -/
abbrev GoMap := List (String × DomainBlock)

/-- Lookup `m[key]`, with the `exists` flag as the option. -/
def mapGet : GoMap → String → Option DomainBlock
  | [], _ => none
  | (k, v) :: m, key => if k = key then some v else mapGet m key

/-- The builtin `delete(m, key)`. -/
def mapDelete (m : GoMap) (key : String) : GoMap :=
  m.filter (fun e => decide (e.1 ≠ key))

/-- The assignment `m[key] = v`. -/
def mapSet (m : GoMap) (key : String) (v : DomainBlock) : GoMap :=
  mapDelete m key ++ [(key, v)]

/-- The order in which `range` visits the entries of a map: some permutation. -/
structure RangeOrder where
  order : GoMap → GoMap
  perm : ∀ m, List.Perm (order m) m

/-- The order that visits the entries as stored. -/
def RangeOrder.stored : RangeOrder := ⟨fun m => m, fun _ => List.Perm.refl _⟩

/-- Lines 134-137: index the current state by domain; `none` is the nil
dereference at `block.Domain`. -/
def indexByDomain : List (Option DomainBlock) → GoMap → Option GoMap
  | [], m => some m
  | none :: _, _ => none
  | some block :: rest, m => indexByDomain rest (mapSet m block.Domain block)

/-- Lines 139-161: the loop over the new state, from map `m`, after `k`
mutation requests.  Returns the calls attempted and either the error that
ended the cycle or the map left for the deletions and the request count. -/
def desiredLoop (remote : Remote) : List DomainBlock → GoMap → Nat →
    List Call × Except String (GoMap × Nat)
  | [], m, k => ([], .ok (m, k))
  | newBlock :: rest, m, k =>
    match mapGet m newBlock.Domain with
    | none =>
      match createDomainBlock remote k newBlock with
      | (c, some err) => ([c], .error err)
      | (c, none) =>
        let r := desiredLoop remote rest m (k + 1)
        (c :: r.1, r.2)
    | some currentBlock =>
      if differs currentBlock newBlock then
        match updateDomainBlock remote k currentBlock.ID newBlock with
        | (c, some err) => ([c], .error err)
        | (c, none) =>
          let r := desiredLoop remote rest (mapDelete m newBlock.Domain) (k + 1)
          (c :: r.1, r.2)
      else
        desiredLoop remote rest (mapDelete m newBlock.Domain) k

/-- Lines 164-169: the loop over the remaining entries, in visiting order. -/
def deleteLoop (remote : Remote) : List (String × DomainBlock) → Nat →
    List Call × Option String
  | [], _ => ([], none)
  | (_, removedBlock) :: rest, k =>
    match deleteDomainBlock remote k removedBlock.ID with
    | (c, some err) => ([c], some err)
    | (c, none) =>
      let r := deleteLoop remote rest (k + 1)
      (c :: r.1, r.2)

/-- How a cycle ends. -/
inductive Outcome where
  | ok
  | error (err : String)
  | nilDereference
deriving DecidableEq, Repr

/-- Method `syncInternalData`: the mutation calls attempted, in order, and the
result.  `newState` holds no nil pointer: it is built by `translateData`. -/
def syncInternalData (ro : RangeOrder) (remote : Remote) (newState : List DomainBlock) :
    List Call × Outcome :=
  match getDomainBlocks remote with
  | .error err => ([], .error err)
  | .ok currentState =>
    match indexByDomain currentState [] with
    | none => ([], .nilDereference)
    | some currentDomainMap =>
      match desiredLoop remote newState currentDomainMap 0 with
      | (calls, .error err) => (calls, .error err)
      | (calls, .ok (remaining, k)) =>
        match deleteLoop remote (ro.order remaining) k with
        | (dels, some err) => (calls ++ dels, .error err)
        | (dels, none) => (calls ++ dels, .ok)

/-- Method `SyncData`: sanitize, translate, reconcile. -/
def SyncData (ro : RangeOrder) (remote : Remote) (raw : data.Data) : List Call × Outcome :=
  match data.Sanitize raw with
  | none => ([], .nilDereference)
  | some sanitized =>
    match translateData sanitized with
    | none => ([], .nilDereference)
    | some newState => syncInternalData ro remote newState

end mastodon

/-! ## Definitions used to state and prove the reconciler properties -/

namespace mastodon

/-- The request `createDomainBlock` makes for a block. -/
def createCall (b : DomainBlock) : Call :=
  Call.create b.Domain b.Severity b.RejectMedia b.RejectReports b.PublicComment

/-- The request `updateDomainBlock` makes for an identifier and a block. -/
def updateCall (id : String) (b : DomainBlock) : Call :=
  Call.update id b.Severity b.RejectMedia b.RejectReports b.PublicComment

/-- The calls `desiredLoop` goes through when none of them fails, and the map
it leaves for the deletions. -/
def planDesired : List DomainBlock → GoMap → List Call × GoMap
  | [], m => ([], m)
  | newBlock :: rest, m =>
    match mapGet m newBlock.Domain with
    | none =>
      let r := planDesired rest m
      (createCall newBlock :: r.1, r.2)
    | some currentBlock =>
      let r := planDesired rest (mapDelete m newBlock.Domain)
      if differs currentBlock newBlock then (updateCall currentBlock.ID newBlock :: r.1, r.2)
      else r

/-- Make the requests of a list one after the other, the first of them after
`k` earlier ones, until one fails: the requests made and the error, if any. -/
def execCalls (remote : Remote) : List Call → Nat → List Call × Option String
  | [], _ => ([], none)
  | c :: cs, k =>
    match callResult (remote.mutation k) with
    | some err => ([c], some err)
    | none =>
      let r := execCalls remote cs (k + 1)
      (c :: r.1, r.2)

/-- The classification of section 4.4 of the specification, for one desired
entry `d` against the current index: a create carrying the fields of `d` when
the index has no entry for its domain; an update addressed to the identifier
of the current entry and carrying severity, flags and comment of `d` when the
current entry differs in one of these four; nothing otherwise. -/
def classify (index : GoMap) (d : DomainBlock) : List Call :=
  match mapGet index d.Domain with
  | none => [Call.create d.Domain d.Severity d.RejectMedia d.RejectReports d.PublicComment]
  | some cur =>
    if cur.Severity ≠ d.Severity ∨ cur.RejectMedia ≠ d.RejectMedia ∨
        cur.RejectReports ≠ d.RejectReports ∨ cur.PublicComment ≠ d.PublicComment then
      [Call.update cur.ID d.Severity d.RejectMedia d.RejectReports d.PublicComment]
    else []

/-- The same remote with every mutation request answered by status 200. -/
def Remote.allSucceed (remote : Remote) : Remote :=
  { remote with mutation := fun _ => .ok ⟨200, ""⟩ }

/-- A remote whose list answer decodes to the blocks `cur`. -/
def Remote.answering (cur : List DomainBlock) (mutation : Nat → Transport) : Remote :=
  { decode := fun _ => .ok (cur.map some), list := .ok ⟨200, ""⟩, mutation := mutation }

/-- The index of a list of blocks whose domains are pairwise distinct. -/
def indexOf (L : List DomainBlock) : GoMap := L.map (fun b => (b.Domain, b))

/-- The domain of a block with the four fields `differs` compares. -/
def content (b : DomainBlock) : String × String × Bool × Bool × String :=
  (b.Domain, b.Severity, b.RejectMedia, b.RejectReports, b.PublicComment)

/-- Overwrite severity, flags and comment of a stored block. -/
def overwrite (b : DomainBlock) (severity : String) (rejectMedia rejectReports : Bool)
    (publicComment : String) : DomainBlock :=
  { b with Severity := severity, RejectMedia := rejectMedia, RejectReports := rejectReports,
           PublicComment := publicComment }

/-- Modelled from the spec: the remote store, which is not part of this
repository.  A create adds the entry, under the identifier `alloc` picks; an
update overwrites severity, flags and comment of the block with the addressed
identifier; a delete removes the block with the addressed identifier. -/
def applyCall (alloc : List DomainBlock → String) (store : List DomainBlock) :
    Call → List DomainBlock
  | Call.create domain severity rejectMedia rejectReports publicComment =>
    store ++ [⟨alloc store, domain, severity, rejectMedia, rejectReports, publicComment⟩]
  | Call.update id severity rejectMedia rejectReports publicComment =>
    store.map (fun b =>
      if b.ID = id then overwrite b severity rejectMedia rejectReports publicComment else b)
  | Call.delete id => store.filter (fun b => decide (b.ID ≠ id))

/-- Modelled from the spec: the remote store after a sequence of calls. -/
def applyCalls (alloc : List DomainBlock → String) (store : List DomainBlock)
    (calls : List Call) : List DomainBlock :=
  calls.foldl (applyCall alloc) store

/-- An identifier no block of the store has: longer than all of them together. -/
def freshID (store : List DomainBlock) : String :=
  String.mk (List.replicate ((store.map (fun b => b.ID.length)).sum + 1) 'n')

/-- What a sequence of calls does to one stored block (`none`: removed). -/
def fate : List Call → DomainBlock → Option DomainBlock
  | [], b => some b
  | Call.create _ _ _ _ _ :: P, b => fate P b
  | Call.update id s rm rr pc :: P, b => fate P (if b.ID = id then overwrite b s rm rr pc else b)
  | Call.delete id :: P, b => if b.ID = id then none else fate P b

/-- The blocks a sequence of calls creates, as they stand after all of it. -/
def createdBy (alloc : List DomainBlock → String) : List DomainBlock → List Call →
    List DomainBlock
  | _, [] => []
  | T, Call.create d s rm rr pc :: P =>
    (fate P ⟨alloc T, d, s, rm, rr, pc⟩).toList ++
      createdBy alloc (applyCall alloc T (Call.create d s rm rr pc)) P
  | T, Call.update id s rm rr pc :: P =>
    createdBy alloc (applyCall alloc T (Call.update id s rm rr pc)) P
  | T, Call.delete id :: P => createdBy alloc (applyCall alloc T (Call.delete id)) P

/-- The identifier a call addresses. -/
def Call.target : Call → Option String
  | Call.create _ _ _ _ _ => none
  | Call.update id _ _ _ _ => some id
  | Call.delete id => some id

/-- A current state: one block to update, one to delete, one to leave. -/
def exampleCurrent : List DomainBlock :=
  [⟨"7", "a.com", "suspend", false, false, ""⟩,
   ⟨"3", "old.com", "suspend", false, false, ""⟩,
   ⟨"9", "same.com", "silence", true, false, "spam"⟩]

/-- A desired state: one block to update, one to create, one unchanged. -/
def exampleDesired : List DomainBlock :=
  [⟨"", "a.com", "silence", false, false, ""⟩,
   ⟨"", "bad.example", "suspend", true, false, ""⟩,
   ⟨"", "same.com", "silence", true, false, "spam"⟩]

/-- Answers to the mutation requests: status 200 to all. -/
def allOk : Nat → Transport := fun _ => .ok ⟨200, ""⟩

/-- Answers to the mutation requests: status 500 to the second, 200 to the others. -/
def failingSecond : Nat → Transport :=
  fun k => if k = 1 then .ok ⟨500, "boom"⟩ else .ok ⟨200, ""⟩

end mastodon

/-! ## Further example data -/

namespace mastodon

/-- A stand-in for `json.Unmarshal` into `[]*DomainBlock` that is right on the
two bodies it is applied to below: the JSON text `[]` decodes to the empty
list, and the text `boom` is not JSON. -/
def decodeEmptyArray (body : String) : Except String (List (Option DomainBlock)) :=
  if body = "[]" then .ok [] else .error "cannot unmarshal"

/-- Answers to the mutation requests: status 500 with body `boom` to all. -/
def failingAll : Nat → Transport := fun _ => .ok ⟨500, "boom"⟩

/-- A desired state that lists `a.com` twice, with different severities. -/
def exampleRepeated : List DomainBlock :=
  [⟨"", "a.com", "silence", false, false, ""⟩,
   ⟨"", "a.com", "suspend", false, false, ""⟩]

end mastodon

/-! ## Theorems: the sanitizer -/

namespace data

theorem sanitizeLoop_map_some (rules : List DomainBlock) (used : List String)
    (blocks : List DomainBlock) :
    sanitizeLoop (rules.map some) used blocks =
      some (blocks ++ (rules.filter (fun b => decide (b.Domains ≠ []))).map fixSeverity) := by
  induction rules generalizing used blocks with
  | nil => simp [sanitizeLoop]
  | cons r rs ih =>
    simp only [List.map_cons, sanitizeLoop]
    split_ifs with h
    · rw [ih]; simp [List.filter_cons, List.length_eq_zero.mp h]
    · have h0 : r.Domains ≠ [] := fun h0 => h (List.length_eq_zero.mpr h0)
      rw [ih]; simp [List.filter_cons, h0]

/-- On a rule list without nil entries `Sanitize` returns: the rules with a
non-empty declared domain list, last declared first, severity fixed. -/
theorem Sanitize_rules (rules : List DomainBlock) :
    Sanitize ⟨rules.map some⟩ =
      some ⟨((rules.reverse.filter (fun b => decide (b.Domains ≠ []))).map
        fixSeverity).map some⟩ := by
  unfold Sanitize
  simp only [← List.map_reverse, sanitizeLoop_map_some]
  simp

theorem fixSeverity_severity (r : DomainBlock) :
    (fixSeverity r).Severity =
      if r.Severity = "silence" ∨ r.Severity = "suspend" then r.Severity else "none" := by
  unfold fixSeverity BlockSeveritySuspend BlockSeveritySilence BlockSeverityNone
  by_cases h1 : r.Severity = "silence"
  · simp [h1]
  · by_cases h2 : r.Severity = "suspend"
    · simp [h2]
    · by_cases h3 : r.Severity = "none"
      · simp [h3]
      · simp [h1, h2, h3]

theorem fixSeverity_fixSeverity (r : DomainBlock) :
    fixSeverity (fixSeverity r) = fixSeverity r := by
  unfold fixSeverity
  split_ifs <;> simp_all

theorem fixSeverity_domains (r : DomainBlock) : (fixSeverity r).Domains = r.Domains := by
  unfold fixSeverity
  split_ifs <;> rfl

theorem retained_of_fixed (ys : List DomainBlock)
    (h : ∀ y ∈ ys, y.Domains ≠ [] ∧ fixSeverity y = y) :
    (ys.filter (fun b => decide (b.Domains ≠ []))).map fixSeverity = ys := by
  induction ys with
  | nil => rfl
  | cons y ys ih =>
    have hy := h y (List.mem_cons_self _ _)
    have ih2 := ih (fun z hz => h z (List.mem_cons_of_mem _ hz))
    simpa [List.filter_cons, hy.1, hy.2] using ih2

end data
namespace data

theorem fixSeverity_eq (r : DomainBlock) :
    fixSeverity r =
      { r with Severity :=
          if r.Severity = "silence" ∨ r.Severity = "suspend" then r.Severity else "none" } := by
  obtain ⟨ds, sev, rm, rr, reason⟩ := r
  unfold fixSeverity BlockSeveritySuspend BlockSeveritySilence BlockSeverityNone
  by_cases h1 : sev = "silence"
  · simp [h1]
  · by_cases h2 : sev = "suspend"
    · simp [h2]
    · by_cases h3 : sev = "none"
      · simp [h3]
      · simp [h1, h2, h3]

/-- C3, the code at the failing input: two rules list `x.com`, the first with
severity silence and the one declared later with severity suspend.  After
`Sanitize` and `translateData` the desired state holds two flat blocks for
`x.com`, one from each rule, where the claim has exactly one, from the later
rule. -/
theorem C3_duplicate_domain_kept_in_both_rules :
    (Sanitize ⟨[some ⟨["x.com"], "silence", false, false, "first"⟩,
                some ⟨["x.com"], "suspend", true, true, "second"⟩]⟩).bind
        mastodon.translateData =
      some [⟨"", "x.com", "suspend", true, true, "second"⟩,
            ⟨"", "x.com", "silence", false, false, "first"⟩] := by
  decide

/-- C4, the code at the failing input: a rule listing `localhost` (no dot) and
` Example.COM ` (upper case, surrounded by blanks) leaves `Sanitize` with both
strings unchanged, although the inner loop computed the one normalised domain
`example.com` into its local slice. -/
theorem C4_unnormalised_domains_in_output :
    Sanitize ⟨[some ⟨["localhost", " Example.COM "], "suspend", false, false, ""⟩]⟩ =
        some ⟨[some ⟨["localhost", " Example.COM "], "suspend", false, false, ""⟩]⟩ ∧
      strings.Contains "localhost" "." = false ∧
      strings.TrimSpace (strings.ToLower " Example.COM ") = "example.com" ∧
      (filterDomains ["localhost", " Example.COM "] [] []).1 = ["example.com"] := by
  decide

/-- C5, the code at the failing input: `dup.org` is listed twice by one rule
and once more by a later rule; the output of `Sanitize` still lists it three
times. -/
theorem C5_domain_occurs_more_than_once :
    Sanitize ⟨[some ⟨["dup.org", "dup.org"], "none", false, false, ""⟩,
               some ⟨["dup.org"], "silence", false, false, ""⟩]⟩ =
      some ⟨[some ⟨["dup.org"], "silence", false, false, ""⟩,
             some ⟨["dup.org", "dup.org"], "none", false, false, ""⟩]⟩ := by
  decide

/-- C6, the code at the failing input: of the two domains of the first rule,
`a.com` is claimed by the rule declared later and `localhost` has no dot, so
the inner loop leaves its slice of surviving domains empty; the rule is in
the output of `Sanitize` all the same, with both domains. -/
theorem C6_rule_without_surviving_domain_retained :
    Sanitize ⟨[some ⟨["a.com", "localhost"], "silence", false, false, "early"⟩,
               some ⟨["a.com"], "suspend", false, false, "late"⟩]⟩ =
        some ⟨[some ⟨["a.com"], "suspend", false, false, "late"⟩,
               some ⟨["a.com", "localhost"], "silence", false, false, "early"⟩]⟩ ∧
      (filterDomains ["a.com", "localhost"] [] ["a.com"]).1 = [] := by
  decide

/-- C7, severity normalisation: on every list of rules `Sanitize` returns, and
its output is the rules with a non-empty declared domain list, last declared
first, each with its severity kept when it is exactly `silence` or `suspend`
and replaced by `none` otherwise; hence every severity in the output is one of
`silence`, `suspend`, `none`. -/
theorem C7_severity_normalised (rules : List DomainBlock) :
    ∃ out : List DomainBlock,
      Sanitize ⟨rules.map some⟩ = some ⟨out.map some⟩ ∧
      out = (rules.reverse.filter (fun r => decide (r.Domains ≠ []))).map
        (fun r => { r with Severity :=
          if r.Severity = "silence" ∨ r.Severity = "suspend" then r.Severity else "none" }) ∧
      ∀ r ∈ out, r.Severity = "silence" ∨ r.Severity = "suspend" ∨ r.Severity = "none" := by
  refine ⟨_, Sanitize_rules rules, ?_, ?_⟩
  · exact List.map_congr_left (fun r _ => fixSeverity_eq r)
  · intro r hr
    obtain ⟨x, -, rfl⟩ := List.mem_map.mp hr
    rw [fixSeverity_severity]
    by_cases h1 : x.Severity = "silence"
    · simp [h1]
    · by_cases h2 : x.Severity = "suspend"
      · simp [h2]
      · simp [h1, h2]

/-- C10, idempotence: on every list of rules `Sanitize` returns, `Sanitize` of
its output returns as well, and the two outputs stand for the same
(domain, severity, reject-media, reject-reports, reason) pairs: the lists of
pairs are permutations of each other, so a pair belongs to one exactly when it
belongs to the other. -/
theorem C10_sanitize_idempotent (rules : List DomainBlock) :
    ∃ out out2, Sanitize ⟨rules.map some⟩ = some out ∧ Sanitize out = some out2 ∧
      (ruleMappings out2).Perm (ruleMappings out) ∧
      ∀ p, p ∈ ruleMappings out2 ↔ p ∈ ruleMappings out := by
  have key : ((((rules.reverse.filter (fun b => decide (b.Domains ≠ []))).map
      fixSeverity).reverse.filter (fun b => decide (b.Domains ≠ []))).map fixSeverity) =
      ((rules.reverse.filter (fun b => decide (b.Domains ≠ []))).map fixSeverity).reverse := by
    apply retained_of_fixed
    intro y hy
    simp only [List.mem_reverse, List.mem_map, List.mem_filter, decide_eq_true_eq] at hy
    obtain ⟨r, ⟨-, hr⟩, rfl⟩ := hy
    exact ⟨by rwa [fixSeverity_domains], fixSeverity_fixSeverity r⟩
  have hperm : (ruleMappings ⟨(((rules.reverse.filter (fun b => decide (b.Domains ≠ []))).map
      fixSeverity).reverse).map some⟩).Perm (ruleMappings ⟨((rules.reverse.filter
        (fun b => decide (b.Domains ≠ []))).map fixSeverity).map some⟩) := by
    unfold ruleMappings
    exact List.Perm.flatMap_right _ ((List.reverse_perm _).map some)
  refine ⟨_, _, Sanitize_rules rules, Sanitize_rules _, ?_, ?_⟩
  · rw [key]; exact hperm
  · intro p; rw [key]; exact hperm.mem_iff

end data

/-! ## Theorems: the reconciler -/

namespace mastodon

theorem desiredLoop_eq_exec (remote : Remote) (D : List DomainBlock) (m : GoMap) (k : Nat) :
    desiredLoop remote D m k =
      match execCalls remote (planDesired D m).1 k with
      | (t, some err) => (t, .error err)
      | (t, none) => (t, .ok ((planDesired D m).2, k + (planDesired D m).1.length)) := by
  induction D generalizing m k with
  | nil => simp [desiredLoop, planDesired, execCalls]
  | cons nb rest ih =>
    unfold desiredLoop planDesired
    cases hget : mapGet m nb.Domain with
    | none =>
      simp only [createDomainBlock, execCalls, createCall]
      cases hc : callResult (remote.mutation k) with
      | some err => simp
      | none =>
        simp only [ih]
        cases hx : execCalls remote (planDesired rest m).1 (k + 1) with
        | mk t r =>
          cases r <;> simp [Nat.add_assoc, Nat.add_comm 1]
    | some cur =>
      by_cases hd : differs cur nb = true
      · simp only [hd, if_true, updateDomainBlock, execCalls, updateCall]
        cases hc : callResult (remote.mutation k) with
        | some err => simp
        | none =>
          simp only [ih]
          cases hx : execCalls remote (planDesired rest (mapDelete m nb.Domain)).1 (k + 1) with
          | mk t r =>
            cases r <;> simp [Nat.add_assoc, Nat.add_comm 1]
      · simp only [hd]
        simp [ih]

theorem deleteLoop_eq_exec (remote : Remote) (es : List (String × DomainBlock)) (k : Nat) :
    deleteLoop remote es k = execCalls remote (es.map (fun e => Call.delete e.2.ID)) k := by
  induction es generalizing k with
  | nil => simp [deleteLoop, execCalls]
  | cons e es ih =>
    obtain ⟨key, b⟩ := e
    simp only [deleteLoop, deleteDomainBlock, List.map_cons, execCalls]
    cases hc : callResult (remote.mutation k) with
    | some err => simp
    | none => simp [ih]

theorem execCalls_append (remote : Remote) (a b : List Call) (k : Nat) :
    execCalls remote (a ++ b) k =
      match execCalls remote a k with
      | (t, some err) => (t, some err)
      | (t, none) => (t ++ (execCalls remote b (k + a.length)).1,
          (execCalls remote b (k + a.length)).2) := by
  induction a generalizing k with
  | nil => simp [execCalls]
  | cons c cs ih =>
    simp only [List.cons_append, execCalls]
    cases hc : callResult (remote.mutation k) with
    | some err => simp
    | none =>
      simp only [List.append_eq]
      rw [ih (k + 1)]
      cases hx : execCalls remote cs (k + 1) with
      | mk t r =>
        cases r <;> simp [Nat.add_assoc, Nat.add_comm 1]

theorem execCalls_all_ok (remote : Remote) (h : ∀ k, callResult (remote.mutation k) = none)
    (cs : List Call) (k : Nat) : execCalls remote cs k = (cs, none) := by
  induction cs generalizing k with
  | nil => rfl
  | cons c cs ih => simp [execCalls, h k, ih]

theorem execCalls_fail (remote : Remote) (cs : List Call) (k j : Nat) (err : String)
    (hprev : ∀ i, i < j → callResult (remote.mutation (k + i)) = none)
    (hfail : callResult (remote.mutation (k + j)) = some err) (hj : j < cs.length) :
    execCalls remote cs k = (cs.take (j + 1), some err) := by
  induction cs generalizing k j with
  | nil => simp at hj
  | cons c cs ih =>
    cases j with
    | zero =>
      simp only [Nat.add_zero] at hfail
      simp [execCalls, hfail]
    | succ j =>
      have h0 : callResult (remote.mutation k) = none := by simpa using hprev 0 (Nat.succ_pos _)
      have hrec := ih (k + 1) j
        (fun i hi => by
          have := hprev (i + 1) (Nat.succ_lt_succ hi)
          rwa [Nat.add_assoc, Nat.add_comm 1 i])
        (by rwa [Nat.add_assoc, Nat.add_comm 1 j])
        (by simpa using hj)
      simp [execCalls, h0, hrec]

theorem mapGet_mapDelete_ne (m : GoMap) (k key : String) (h : k ≠ key) :
    mapGet (mapDelete m k) key = mapGet m key := by
  induction m with
  | nil => rfl
  | cons e m ih =>
    obtain ⟨a, v⟩ := e
    by_cases ha : a = k
    · subst ha
      have : mapDelete ((a, v) :: m) a = mapDelete m a := by simp [mapDelete]
      rw [this, ih]; simp [mapGet, h]
    · have : mapDelete ((a, v) :: m) k = (a, v) :: mapDelete m k := by simp [mapDelete, ha]
      rw [this]; simp [mapGet, ih]

theorem mapGet_mapDelete_self (m : GoMap) (k : String) : mapGet (mapDelete m k) k = none := by
  induction m with
  | nil => rfl
  | cons e m ih =>
    obtain ⟨a, v⟩ := e
    by_cases ha : a = k
    · subst ha
      have : mapDelete ((a, v) :: m) a = mapDelete m a := by simp [mapDelete]
      rw [this, ih]
    · have : mapDelete ((a, v) :: m) k = (a, v) :: mapDelete m k := by simp [mapDelete, ha]
      rw [this]; simp [mapGet, ih, ha]

theorem mapGet_eq_none_iff (m : GoMap) (key : String) :
    mapGet m key = none ↔ ∀ e ∈ m, e.1 ≠ key := by
  induction m with
  | nil => simp [mapGet]
  | cons e m ih =>
    obtain ⟨a, v⟩ := e
    by_cases ha : a = key
    · simp [mapGet, ha]
    · simp [mapGet, ha, ih]

theorem mapDelete_of_none (m : GoMap) (key : String) (h : mapGet m key = none) :
    mapDelete m key = m := by
  rw [mapGet_eq_none_iff] at h
  unfold mapDelete
  rw [List.filter_eq_self]
  intro e he
  simpa using h e he

theorem differs_iff (a b : DomainBlock) :
    differs a b = true ↔ (a.Severity ≠ b.Severity ∨ a.RejectMedia ≠ b.RejectMedia ∨
        a.RejectReports ≠ b.RejectReports ∨ a.PublicComment ≠ b.PublicComment) := by
  simp [differs, or_assoc]

theorem planDesired_snd (D : List DomainBlock) (m : GoMap) :
    (planDesired D m).2 = m.filter (fun e => decide (e.1 ∉ D.map (fun d => d.Domain))) := by
  induction D generalizing m with
  | nil => simp [planDesired]
  | cons nb rest ih =>
    unfold planDesired
    have hfil : (mapDelete m nb.Domain).filter
          (fun e => decide (e.1 ∉ rest.map (fun d => d.Domain))) =
        m.filter (fun e => decide (e.1 ∉ (nb :: rest).map (fun d => d.Domain))) := by
      unfold mapDelete
      rw [List.filter_filter]
      apply List.filter_congr
      intro e _
      by_cases h1 : e.1 = nb.Domain <;>
        by_cases h2 : e.1 ∈ rest.map (fun d => d.Domain) <;> simp [h1, h2]
    cases hget : mapGet m nb.Domain with
    | none =>
      simp only [ih]
      rw [← hfil, mapDelete_of_none m _ hget]
    | some cur =>
      by_cases hd : differs cur nb = true
      · simp only [hd, if_true, ih, hfil]
      · simp only [hd, Bool.false_eq_true, if_false, ih, hfil]

theorem classify_congr (m m2 : GoMap) (d : DomainBlock)
    (h : mapGet m d.Domain = mapGet m2 d.Domain) : classify m d = classify m2 d := by
  unfold classify; rw [h]

theorem flatMap_classify_delete (rest : List DomainBlock) (m : GoMap) (k : String)
    (h : ∀ d ∈ rest, d.Domain ≠ k) :
    rest.flatMap (classify (mapDelete m k)) = rest.flatMap (classify m) := by
  induction rest with
  | nil => rfl
  | cons d rest ih =>
    simp only [List.flatMap_cons]
    rw [ih (fun x hx => h x (List.mem_cons_of_mem _ hx)),
      classify_congr (mapDelete m k) m d
        (mapGet_mapDelete_ne m k d.Domain (fun e => h d (List.mem_cons_self _ _) e.symm))]

theorem planDesired_fst (D : List DomainBlock) (m : GoMap)
    (hnd : (D.map (fun d => d.Domain)).Nodup) :
    (planDesired D m).1 = D.flatMap (classify m) := by
  induction D generalizing m with
  | nil => simp [planDesired]
  | cons nb rest ih =>
    rw [List.map_cons, List.nodup_cons] at hnd
    have hne : ∀ d ∈ rest, d.Domain ≠ nb.Domain := by
      intro d hd e
      exact hnd.1 (List.mem_map.mpr ⟨d, hd, e⟩)
    unfold planDesired
    simp only [List.flatMap_cons]
    cases hget : mapGet m nb.Domain with
    | none =>
      simp only [ih m hnd.2, classify, hget, createCall]
      rfl
    | some cur =>
      have hcl : classify m nb = if differs cur nb = true then [updateCall cur.ID nb] else [] := by
        simp only [classify, hget, differs_iff, updateCall]
      by_cases hd : differs cur nb = true
      · simp only [hd, if_true, ih _ hnd.2, flatMap_classify_delete rest m _ hne, hcl]
        rfl
      · simp only [hd, Bool.false_eq_true, if_false, ih _ hnd.2,
          flatMap_classify_delete rest m _ hne, hcl]
        rfl

theorem indexByDomain_map_some (cur : List DomainBlock) (m : GoMap) :
    indexByDomain (cur.map some) m = some (cur.foldl (fun m b => mapSet m b.Domain b) m) := by
  induction cur generalizing m with
  | nil => rfl
  | cons b cur ih => simp [indexByDomain, ih]

theorem mapDelete_keys (m : GoMap) (k : String) :
    (mapDelete m k).map Prod.fst = (m.map Prod.fst).filter (fun a => decide (a ≠ k)) := by
  unfold mapDelete
  induction m with
  | nil => rfl
  | cons e m ih =>
    by_cases h : e.1 = k <;> simpa [List.filter_cons, h] using ih

theorem mapSet_keys_nodup (m : GoMap) (k : String) (v : DomainBlock)
    (h : (m.map Prod.fst).Nodup) : ((mapSet m k v).map Prod.fst).Nodup := by
  unfold mapSet
  rw [List.map_append, mapDelete_keys]
  apply List.Nodup.append (h.filter _) (by simp)
  intro a ha hk
  simp at ha hk
  exact ha.2 hk

theorem foldl_mapSet_inv (cur : List DomainBlock) (m : GoMap) (all : List DomainBlock)
    (hsub : ∀ b ∈ cur, b ∈ all)
    (h : (m.map Prod.fst).Nodup ∧ ∀ e ∈ m, e.1 = e.2.Domain ∧ e.2 ∈ all) :
    ((cur.foldl (fun m b => mapSet m b.Domain b) m).map Prod.fst).Nodup ∧
      ∀ e ∈ cur.foldl (fun m b => mapSet m b.Domain b) m, e.1 = e.2.Domain ∧ e.2 ∈ all := by
  induction cur generalizing m with
  | nil => exact h
  | cons b cur ih =>
    simp only [List.foldl_cons]
    apply ih _ (fun x hx => hsub x (List.mem_cons_of_mem _ hx))
    refine ⟨mapSet_keys_nodup m _ _ h.1, ?_⟩
    intro e he
    simp only [mapSet, mapDelete, List.mem_append, List.mem_filter, List.mem_singleton] at he
    rcases he with he | he
    · exact h.2 e he.1
    · subst he; exact ⟨rfl, hsub b (List.mem_cons_self _ _)⟩

theorem syncInternalData_eq (ro : RangeOrder) (remote : Remote) (D : List DomainBlock)
    (cur : List (Option DomainBlock)) (idx : GoMap)
    (hread : getDomainBlocks remote = .ok cur) (hidx : indexByDomain cur [] = some idx) :
    syncInternalData ro remote D =
      match execCalls remote ((planDesired D idx).1 ++
          (ro.order (planDesired D idx).2).map (fun e => Call.delete e.2.ID)) 0 with
      | (t, some err) => (t, .error err)
      | (t, none) => (t, .ok) := by
  unfold syncInternalData
  rw [hread]
  simp only [hidx, desiredLoop_eq_exec, execCalls_append, Nat.zero_add]
  cases hx : execCalls remote (planDesired D idx).1 0 with
  | mk t r =>
    cases r with
    | some err => rfl
    | none =>
      simp only [deleteLoop_eq_exec]
      cases hy : execCalls remote
          ((ro.order (planDesired D idx).2).map (fun e => Call.delete e.2.ID))
          (planDesired D idx).1.length with
      | mk t2 r2 => cases r2 <;> rfl

theorem planDesired_no_delete (D : List DomainBlock) (m : GoMap) :
    ∀ c ∈ (planDesired D m).1, ∀ id, c ≠ Call.delete id := by
  induction D generalizing m with
  | nil => simp [planDesired]
  | cons nb rest ih =>
    unfold planDesired
    cases hget : mapGet m nb.Domain with
    | none =>
      intro c hc id
      simp only [List.mem_cons] at hc
      rcases hc with hc | hc
      · subst hc; simp [createCall]
      · exact ih m c hc id
    | some cur =>
      by_cases hd : differs cur nb = true
      · intro c hc id
        simp only [hd, if_true, List.mem_cons] at hc
        rcases hc with hc | hc
        · subst hc; simp [updateCall]
        · exact ih _ c hc id
      · simp only [hd, Bool.false_eq_true, if_false]
        exact ih _

theorem applyCalls_eq (alloc : List DomainBlock → String) (T : List DomainBlock)
    (P : List Call) :
    applyCalls alloc T P = T.filterMap (fate P) ++ createdBy alloc T P := by
  induction P generalizing T with
  | nil => simp [applyCalls, fate, createdBy]
  | cons c P ih =>
    have hstep : applyCalls alloc T (c :: P) = applyCalls alloc (applyCall alloc T c) P := rfl
    rw [hstep, ih]
    cases c with
    | create d s rm rr pc =>
      simp only [applyCall, createdBy, List.filterMap_append, List.append_assoc]
      congr 1
    | update id s rm rr pc =>
      simp only [applyCall, createdBy, List.filterMap_map]
      rfl
    | delete id =>
      simp only [applyCall, createdBy]
      congr 1
      rw [← List.filterMap_eq_filter, List.filterMap_filterMap]
      apply List.filterMap_congr
      intro b _
      by_cases h : b.ID = id <;> simp [fate, Option.guard, h]

theorem fate_append (P Q : List Call) (b : DomainBlock) :
    fate (P ++ Q) b = (fate P b).bind (fate Q) := by
  induction P generalizing b with
  | nil => simp [fate]
  | cons c P ih =>
    cases c with
    | create d s rm rr pc => simp [fate, ih]
    | update id s rm rr pc => simp [fate, ih]
    | delete id =>
      by_cases h : b.ID = id <;> simp [fate, ih, h]

theorem fate_keeps (P : List Call) (b x : DomainBlock) (h : fate P b = some x) :
    x.ID = b.ID ∧ x.Domain = b.Domain := by
  induction P generalizing b with
  | nil => simp [fate] at h; subst h; exact ⟨rfl, rfl⟩
  | cons c P ih =>
    cases c with
    | create d s rm rr pc => exact ih b h
    | update id s rm rr pc =>
      have := ih _ h
      by_cases hb : b.ID = id <;> simpa [hb, overwrite] using this
    | delete id =>
      by_cases hb : b.ID = id
      · simp [fate, hb] at h
      · simp only [fate, hb, if_false] at h; exact ih b h

theorem fate_frame (P : List Call) (b : DomainBlock)
    (h : ∀ c ∈ P, c.target ≠ some b.ID) : fate P b = some b := by
  induction P with
  | nil => rfl
  | cons c P ih =>
    have h0 := h c (List.mem_cons_self _ _)
    have ih2 := ih (fun x hx => h x (List.mem_cons_of_mem _ hx))
    cases c with
    | create d s rm rr pc => exact ih2
    | update id s rm rr pc =>
      have hb : ¬ b.ID = id := fun e => h0 (by simp [Call.target, e])
      simp [fate, hb, ih2]
    | delete id =>
      have hb : ¬ b.ID = id := fun e => h0 (by simp [Call.target, e])
      simp [fate, hb, ih2]

theorem fate_deleted (P : List Call) (b : DomainBlock) (h : Call.delete b.ID ∈ P) :
    fate P b = none := by
  induction P generalizing b with
  | nil => simp at h
  | cons c P ih =>
    cases c with
    | create d s rm rr pc =>
      simp only [List.mem_cons] at h
      rcases h with h | h
      · cases h
      · exact ih b h
    | update id s rm rr pc =>
      simp only [List.mem_cons] at h
      rcases h with h | h
      · cases h
      · simp only [fate]
        apply ih
        by_cases hb : b.ID = id <;> simpa [hb, overwrite] using h
    | delete id =>
      by_cases hb : b.ID = id
      · simp [fate, hb]
      · simp only [List.mem_cons] at h
        rcases h with h | h
        · injection h with h; exact absurd h hb
        · simp only [fate, hb, if_false]; exact ih b h

theorem createdBy_no_create (alloc : List DomainBlock → String) (T : List DomainBlock)
    (P : List Call) (h : ∀ c ∈ P, c.target ≠ none) : createdBy alloc T P = [] := by
  induction P generalizing T with
  | nil => rfl
  | cons c P ih =>
    have h0 := h c (List.mem_cons_self _ _)
    have ih2 := fun T => ih T (fun x hx => h x (List.mem_cons_of_mem _ hx))
    cases c with
    | create d s rm rr pc => simp [Call.target] at h0
    | update id s rm rr pc => simp [createdBy, ih2]
    | delete id => simp [createdBy, ih2]

theorem foldl_mapSet_of_nodup (L : List DomainBlock) (m : GoMap)
    (hnd : (L.map (fun b => b.Domain)).Nodup)
    (hdis : ∀ b ∈ L, ∀ e ∈ m, e.1 ≠ b.Domain) :
    L.foldl (fun m b => mapSet m b.Domain b) m = m ++ indexOf L := by
  induction L generalizing m with
  | nil => simp [indexOf]
  | cons b L ih =>
    rw [List.map_cons, List.nodup_cons] at hnd
    have h1 : mapSet m b.Domain b = m ++ [(b.Domain, b)] := by
      unfold mapSet
      rw [mapDelete_of_none m _ ((mapGet_eq_none_iff m _).mpr (hdis b (List.mem_cons_self _ _)))]
    simp only [List.foldl_cons, h1]
    rw [ih _ hnd.2]
    · simp [indexOf]
    · intro x hx e he
      simp only [List.mem_append, List.mem_singleton] at he
      rcases he with he | he
      · exact hdis x (List.mem_cons_of_mem _ hx) e he
      · subst he
        intro hEq
        exact hnd.1 (List.mem_map.mpr ⟨x, hx, hEq.symm⟩)

theorem indexByDomain_of_nodup (L : List DomainBlock)
    (hnd : (L.map (fun b => b.Domain)).Nodup) :
    indexByDomain (L.map some) [] = some (indexOf L) := by
  rw [indexByDomain_map_some, foldl_mapSet_of_nodup L [] hnd (by simp)]
  simp

theorem mapGet_indexOf_some (L : List DomainBlock) (k : String) (b : DomainBlock)
    (h : mapGet (indexOf L) k = some b) : b ∈ L ∧ b.Domain = k := by
  induction L with
  | nil => simp [indexOf, mapGet] at h
  | cons x L ih =>
    simp only [indexOf, List.map_cons, mapGet] at h
    by_cases hx : x.Domain = k
    · simp only [hx, if_true, Option.some.injEq] at h
      subst h; exact ⟨List.mem_cons_self _ _, hx⟩
    · simp only [hx, if_false] at h
      exact ⟨List.mem_cons_of_mem _ (ih h).1, (ih h).2⟩

theorem mapGet_indexOf_none (L : List DomainBlock) (k : String) :
    mapGet (indexOf L) k = none ↔ k ∉ L.map (fun b => b.Domain) := by
  rw [mapGet_eq_none_iff]
  simp only [indexOf, List.mem_map]
  constructor
  · rintro h ⟨b, hb, rfl⟩
    exact h (b.Domain, b) ⟨b, hb, rfl⟩ rfl
  · rintro h e ⟨b, hb, rfl⟩ hk
    exact h ⟨b, hb, hk⟩

theorem mapGet_indexOf_mem (L : List DomainBlock)
    (hnd : (L.map (fun b => b.Domain)).Nodup) (b : DomainBlock) (hb : b ∈ L) :
    mapGet (indexOf L) b.Domain = some b := by
  cases h : mapGet (indexOf L) b.Domain with
  | none =>
    exact absurd (List.mem_map.mpr ⟨b, hb, rfl⟩) ((mapGet_indexOf_none L _).mp h)
  | some x =>
    have hx := mapGet_indexOf_some L _ _ h
    rw [List.inj_on_of_nodup_map hnd hx.1 hb hx.2]

theorem classify_target (S : List DomainBlock) (d : DomainBlock) (c : Call) (id : String)
    (hc : c ∈ classify (indexOf S) d) (ht : c.target = some id) :
    ∃ cur ∈ S, cur.Domain = d.Domain ∧ cur.ID = id := by
  unfold classify at hc
  cases hget : mapGet (indexOf S) d.Domain with
  | none =>
    simp only [hget, List.mem_singleton] at hc
    subst hc
    simp [Call.target] at ht
  | some cur =>
    simp only [hget] at hc
    split_ifs at hc with hdiff
    · simp only [List.mem_singleton] at hc
      subst hc
      simp only [Call.target, Option.some.injEq] at ht
      exact ⟨cur, (mapGet_indexOf_some S _ _ hget).1, (mapGet_indexOf_some S _ _ hget).2, ht⟩
    · simp at hc

theorem frame_flatMap (S L : List DomainBlock) (b : DomainBlock)
    (hid : (S.map (fun b => b.ID)).Nodup) (hb : b ∈ S)
    (hbd : b.Domain ∉ L.map (fun d => d.Domain)) :
    ∀ c ∈ L.flatMap (classify (indexOf S)), c.target ≠ some b.ID := by
  intro c hc ht
  simp only [List.mem_flatMap] at hc
  obtain ⟨d, hd, hcd⟩ := hc
  obtain ⟨cur, hcur, hdomain, hcid⟩ := classify_target S d c _ hcd ht
  have : cur = b := List.inj_on_of_nodup_map hid hcur hb hcid
  subst this
  exact hbd (List.mem_map.mpr ⟨d, hd, hdomain.symm⟩)

theorem fate_classify_hit (S : List DomainBlock) (b d : DomainBlock)
    (hdom : (S.map (fun b => b.Domain)).Nodup) (hb : b ∈ S) (hbd : b.Domain = d.Domain) :
    ∃ x, fate (classify (indexOf S) d) b = some x ∧ content x = content d ∧ x.ID = b.ID := by
  have hget : mapGet (indexOf S) d.Domain = some b := by
    rw [← hbd]; exact mapGet_indexOf_mem S hdom b hb
  unfold classify
  simp only [hget]
  split_ifs with hdiff
  · refine ⟨overwrite b d.Severity d.RejectMedia d.RejectReports d.PublicComment, ?_, ?_, rfl⟩
    · simp [fate]
    · simp [content, overwrite, hbd]
  · refine ⟨b, rfl, ?_, rfl⟩
    simp only [not_or, not_not] at hdiff
    simp [content, hbd, hdiff.1, hdiff.2.1, hdiff.2.2.1, hdiff.2.2.2]

theorem fate_flatMap_hit (S L : List DomainBlock) (b d : DomainBlock)
    (hdom : (S.map (fun b => b.Domain)).Nodup) (hid : (S.map (fun b => b.ID)).Nodup)
    (hL : (L.map (fun d => d.Domain)).Nodup)
    (hb : b ∈ S) (hd : d ∈ L) (hbd : b.Domain = d.Domain) :
    ∃ x, fate (L.flatMap (classify (indexOf S))) b = some x ∧ content x = content d ∧
      x.ID = b.ID := by
  induction L with
  | nil => simp at hd
  | cons e L ih =>
    rw [List.map_cons, List.nodup_cons] at hL
    simp only [List.flatMap_cons, fate_append]
    by_cases he : e.Domain = b.Domain
    · have hde : d = e := by
        rcases List.mem_cons.mp hd with h | h
        · exact h
        · exact absurd (List.mem_map.mpr ⟨d, h, by rw [← hbd, he]⟩) hL.1
      subst hde
      obtain ⟨x, hx, hcx, hidx⟩ := fate_classify_hit S b d hdom hb hbd
      refine ⟨x, ?_, hcx, hidx⟩
      rw [hx, Option.some_bind]
      have hfr := frame_flatMap S L b hid hb (by rw [hbd]; exact hL.1)
      rw [← hidx] at hfr
      exact fate_frame _ x hfr
    · have hdL : d ∈ L := by
        rcases List.mem_cons.mp hd with h | h
        · subst h; exact absurd hbd.symm he
        · exact h
      have h1 : fate (classify (indexOf S) e) b = some b := by
        apply fate_frame
        intro c hc ht
        obtain ⟨cur, hcur, hdomain, hcid⟩ := classify_target S e c _ hc ht
        have : cur = b := List.inj_on_of_nodup_map hid hcur hb hcid
        subst this
        exact he hdomain.symm
      rw [h1, Option.some_bind]
      exact ih hL.2 hdL

theorem fate_trace_doomed (S D : List DomainBlock) (P2 : List Call) (b : DomainBlock)
    (hid : (S.map (fun b => b.ID)).Nodup)
    (hP2 : ∀ c, c ∈ P2 ↔ ∃ x ∈ S, x.Domain ∉ D.map (fun d => d.Domain) ∧ c = Call.delete x.ID)
    (hb : b ∈ S) (hbd : b.Domain ∉ D.map (fun d => d.Domain)) :
    fate (D.flatMap (classify (indexOf S)) ++ P2) b = none := by
  rw [fate_append, fate_frame _ b (frame_flatMap S D b hid hb hbd), Option.some_bind]
  exact fate_deleted P2 b ((hP2 _).mpr ⟨b, hb, hbd, rfl⟩)

theorem fate_trace_kept (S D : List DomainBlock) (P2 : List Call) (b d : DomainBlock)
    (hdom : (S.map (fun b => b.Domain)).Nodup) (hid : (S.map (fun b => b.ID)).Nodup)
    (hD : (D.map (fun d => d.Domain)).Nodup)
    (hP2 : ∀ c, c ∈ P2 ↔ ∃ x ∈ S, x.Domain ∉ D.map (fun d => d.Domain) ∧ c = Call.delete x.ID)
    (hb : b ∈ S) (hd : d ∈ D) (hbd : b.Domain = d.Domain) :
    ∃ x, fate (D.flatMap (classify (indexOf S)) ++ P2) b = some x ∧ content x = content d := by
  obtain ⟨x, hx, hcx, hidx⟩ := fate_flatMap_hit S D b d hdom hid hD hb hd hbd
  refine ⟨x, ?_, hcx⟩
  rw [fate_append, hx, Option.some_bind]
  apply fate_frame
  intro c hc ht
  obtain ⟨y, hy, hyd, rfl⟩ := (hP2 c).mp hc
  simp only [Call.target, Option.some.injEq] at ht
  have : y = b := List.inj_on_of_nodup_map hid hy hb (by rw [ht, hidx])
  subst this
  exact hyd (List.mem_map.mpr ⟨d, hd, hbd.symm⟩)

theorem updated_ID (x : DomainBlock) (id s : String) (rm rr : Bool) (pc : String) :
    (if x.ID = id then overwrite x s rm rr pc else x).ID = x.ID := by
  split_ifs <;> rfl

theorem trace_targets (S D L : List DomainBlock) (P2 : List Call)
    (hP2 : ∀ c, c ∈ P2 ↔ ∃ x ∈ S, x.Domain ∉ D.map (fun d => d.Domain) ∧ c = Call.delete x.ID)
    (c : Call) (hc : c ∈ L.flatMap (classify (indexOf S)) ++ P2) (id : String)
    (ht : c.target = some id) : id ∈ S.map (fun b => b.ID) := by
  rcases List.mem_append.mp hc with h | h
  · simp only [List.mem_flatMap] at h
    obtain ⟨d, -, hcd⟩ := h
    obtain ⟨cur, hcur, -, hcid⟩ := classify_target S d c id hcd ht
    exact List.mem_map.mpr ⟨cur, hcur, hcid⟩
  · obtain ⟨y, hy, -, rfl⟩ := (hP2 c).mp h
    simp only [Call.target, Option.some.injEq] at ht
    exact List.mem_map.mpr ⟨y, hy, ht⟩

theorem createdBy_trace (alloc : List DomainBlock → String) (S D : List DomainBlock)
    (P2 : List Call) (halloc : ∀ s, alloc s ∉ s.map (fun b => b.ID))
    (hP2 : ∀ c, c ∈ P2 ↔ ∃ x ∈ S, x.Domain ∉ D.map (fun d => d.Domain) ∧ c = Call.delete x.ID)
    (L T : List DomainBlock) (hsub : ∀ id ∈ S.map (fun b => b.ID), id ∈ T.map (fun b => b.ID)) :
    (createdBy alloc T (L.flatMap (classify (indexOf S)) ++ P2)).map content =
      (L.filter (fun d => (mapGet (indexOf S) d.Domain).isNone)).map content := by
  induction L generalizing T with
  | nil =>
    simp only [List.flatMap_nil, List.nil_append, List.filter_nil, List.map_nil]
    rw [createdBy_no_create]
    · rfl
    · intro c hc
      obtain ⟨y, -, -, rfl⟩ := (hP2 c).mp hc
      simp [Call.target]
  | cons d L ih =>
    simp only [List.flatMap_cons, List.append_assoc]
    cases hget : mapGet (indexOf S) d.Domain with
    | none =>
      have hcl : classify (indexOf S) d =
          [Call.create d.Domain d.Severity d.RejectMedia d.RejectReports d.PublicComment] := by
        simp [classify, hget]
      rw [hcl]
      simp only [List.singleton_append, createdBy, applyCall, List.append_eq, List.nil_append]
      have hnew : fate (L.flatMap (classify (indexOf S)) ++ P2)
          ⟨alloc T, d.Domain, d.Severity, d.RejectMedia, d.RejectReports, d.PublicComment⟩ =
          some ⟨alloc T, d.Domain, d.Severity, d.RejectMedia, d.RejectReports,
            d.PublicComment⟩ := by
        apply fate_frame
        intro c hc ht
        exact halloc T (hsub _ (trace_targets S D L P2 hP2 c hc _ ht))
      rw [hnew]
      have hrec := ih (T ++ [⟨alloc T, d.Domain, d.Severity, d.RejectMedia, d.RejectReports,
          d.PublicComment⟩])
        (fun id h => by
          have := hsub id h
          simp only [List.map_append, List.mem_append]
          exact Or.inl this)
      simp only [Option.toList, List.singleton_append, List.map_cons, hrec,
        List.filter_cons, hget, Option.isNone_none, if_true]
      rfl
    | some cur =>
      have hfil : (List.filter (fun d => (mapGet (indexOf S) d.Domain).isNone) (d :: L)) =
          List.filter (fun d => (mapGet (indexOf S) d.Domain).isNone) L := by
        simp [List.filter_cons, hget]
      rw [hfil]
      by_cases hdiff : (cur.Severity ≠ d.Severity ∨ cur.RejectMedia ≠ d.RejectMedia ∨
          cur.RejectReports ≠ d.RejectReports ∨ cur.PublicComment ≠ d.PublicComment)
      · have hcl : classify (indexOf S) d =
            [Call.update cur.ID d.Severity d.RejectMedia d.RejectReports d.PublicComment] := by
          simp only [classify, hget, hdiff, if_true]
        rw [hcl]
        simp only [List.singleton_append, createdBy, applyCall, List.append_eq,
          List.nil_append]
        apply ih
        intro id h
        have := hsub id h
        simp only [List.map_map, List.mem_map, Function.comp] at this ⊢
        obtain ⟨x, hx, hxid⟩ := this
        exact ⟨x, hx, by rw [updated_ID]; exact hxid⟩
      · have hcl : classify (indexOf S) d = [] := by
          simp only [classify, hget, hdiff, if_false]
        rw [hcl]
        exact ih T hsub

theorem filterMap_domains_sublist (S : List DomainBlock) (f : DomainBlock → Option DomainBlock)
    (hf : ∀ s x, f s = some x → x.Domain = s.Domain) :
    List.Sublist ((S.filterMap f).map (fun b => b.Domain)) (S.map (fun b => b.Domain)) := by
  induction S with
  | nil => simp
  | cons s S ih =>
    cases h : f s with
    | none =>
      simp only [List.filterMap_cons, h, List.map_cons]
      exact ih.cons _
    | some x =>
      simp only [List.filterMap_cons, h, List.map_cons, hf s x h]
      exact ih.cons₂ _

theorem content_domain (b : DomainBlock) : (content b).1 = b.Domain := rfl

theorem final_store (alloc : List DomainBlock → String) (S D : List DomainBlock)
    (P2 : List Call)
    (hdom : (S.map (fun b => b.Domain)).Nodup) (hid : (S.map (fun b => b.ID)).Nodup)
    (hD : (D.map (fun d => d.Domain)).Nodup)
    (halloc : ∀ s, alloc s ∉ s.map (fun b => b.ID))
    (hP2 : ∀ c, c ∈ P2 ↔
      ∃ x ∈ S, x.Domain ∉ D.map (fun d => d.Domain) ∧ c = Call.delete x.ID) :
    (∀ b ∈ applyCalls alloc S (D.flatMap (classify (indexOf S)) ++ P2),
        ∃ d ∈ D, content b = content d) ∧
    (∀ d ∈ D, ∃ b ∈ applyCalls alloc S (D.flatMap (classify (indexOf S)) ++ P2),
        content b = content d) ∧
    ((applyCalls alloc S (D.flatMap (classify (indexOf S)) ++ P2)).map
        (fun b => b.Domain)).Nodup := by
  have hC := createdBy_trace alloc S D P2 halloc hP2 D S (fun _ h => h)
  rw [applyCalls_eq]
  refine ⟨?_, ?_, ?_⟩
  · intro b hb
    rcases List.mem_append.mp hb with h | h
    · obtain ⟨s, hs, hfs⟩ := List.mem_filterMap.mp h
      by_cases hsd : s.Domain ∈ D.map (fun d => d.Domain)
      · obtain ⟨d, hd, hds⟩ := List.mem_map.mp hsd
        obtain ⟨x, hx, hcx⟩ := fate_trace_kept S D P2 s d hdom hid hD hP2 hs hd hds.symm
        rw [hfs] at hx
        injection hx with hx
        subst hx
        exact ⟨d, hd, hcx⟩
      · rw [fate_trace_doomed S D P2 s hid hP2 hs hsd] at hfs
        cases hfs
    · have : content b ∈ (createdBy alloc S
          (D.flatMap (classify (indexOf S)) ++ P2)).map content :=
        List.mem_map.mpr ⟨b, h, rfl⟩
      rw [hC] at this
      obtain ⟨d, hd, hcd⟩ := List.mem_map.mp this
      exact ⟨d, (List.mem_filter.mp hd).1, hcd.symm⟩
  · intro d hd
    cases hget : mapGet (indexOf S) d.Domain with
    | none =>
      have : content d ∈ (D.filter (fun d => (mapGet (indexOf S) d.Domain).isNone)).map
          content :=
        List.mem_map.mpr ⟨d, List.mem_filter.mpr ⟨hd, by simp [hget]⟩, rfl⟩
      rw [← hC] at this
      obtain ⟨b, hb, hcb⟩ := List.mem_map.mp this
      exact ⟨b, List.mem_append.mpr (Or.inr hb), hcb⟩
    | some cur =>
      obtain ⟨hcur, hcd⟩ := mapGet_indexOf_some S _ _ hget
      obtain ⟨x, hx, hcx⟩ := fate_trace_kept S D P2 cur d hdom hid hD hP2 hcur hd hcd
      exact ⟨x, List.mem_append.mpr (Or.inl (List.mem_filterMap.mpr ⟨cur, hcur, hx⟩)), hcx⟩
  · rw [List.map_append]
    have hCd : (createdBy alloc S (D.flatMap (classify (indexOf S)) ++ P2)).map
        (fun b => b.Domain) =
        (D.filter (fun d => (mapGet (indexOf S) d.Domain).isNone)).map (fun b => b.Domain) := by
      have := congrArg (List.map Prod.fst) hC
      simpa [List.map_map, Function.comp, content_domain] using this
    rw [hCd]
    refine List.Nodup.append ?_ ?_ ?_
    · exact (filterMap_domains_sublist S _ (fun s x h => (fate_keeps _ s x h).2)).nodup hdom
    · exact ((List.filter_sublist D).map _).nodup hD
    · intro a ha1 ha2
      have h1 : a ∈ S.map (fun b => b.Domain) :=
        (filterMap_domains_sublist S _ (fun s x h => (fate_keeps _ s x h).2)).subset ha1
      obtain ⟨d, hd, rfl⟩ := List.mem_map.mp ha2
      have h2 := (List.mem_filter.mp hd).2
      rw [Option.isNone_iff_eq_none, mapGet_indexOf_none] at h2
      exact h2 h1

theorem contents_perm (F D : List DomainBlock)
    (hD : (D.map (fun d => d.Domain)).Nodup)
    (h1 : ∀ b ∈ F, ∃ d ∈ D, content b = content d)
    (h2 : ∀ d ∈ D, ∃ b ∈ F, content b = content d)
    (h3 : (F.map (fun b => b.Domain)).Nodup) :
    (F.map content).Perm (D.map content) := by
  have n1 : (F.map content).Nodup := by
    apply List.Nodup.of_map Prod.fst
    simpa [List.map_map, Function.comp, content_domain] using h3
  have n2 : (D.map content).Nodup := by
    apply List.Nodup.of_map Prod.fst
    simpa [List.map_map, Function.comp, content_domain] using hD
  rw [List.perm_ext_iff_of_nodup n1 n2]
  intro a
  simp only [List.mem_map]
  constructor
  · rintro ⟨b, hb, rfl⟩
    obtain ⟨d, hd, h⟩ := h1 b hb
    exact ⟨d, hd, h.symm⟩
  · rintro ⟨d, hd, rfl⟩
    obtain ⟨b, hb, h⟩ := h2 d hd
    exact ⟨b, hb, h⟩

theorem second_run (ro : RangeOrder) (remote : Remote) (F D : List DomainBlock)
    (hD : (D.map (fun d => d.Domain)).Nodup)
    (h1 : ∀ b ∈ F, ∃ d ∈ D, content b = content d)
    (h2 : ∀ d ∈ D, ∃ b ∈ F, content b = content d)
    (h3 : (F.map (fun b => b.Domain)).Nodup)
    (hread : getDomainBlocks remote = .ok (F.map some)) :
    syncInternalData ro remote D = ([], Outcome.ok) := by
  rw [syncInternalData_eq ro remote D _ _ hread (indexByDomain_of_nodup F h3),
    planDesired_fst _ _ hD, planDesired_snd]
  have hA : D.flatMap (classify (indexOf F)) = [] := by
    rw [List.flatMap_eq_nil_iff]
    intro d hd
    obtain ⟨b, hb, hcb⟩ := h2 d hd
    have hbd : b.Domain = d.Domain := congrArg Prod.fst hcb
    have hget : mapGet (indexOf F) d.Domain = some b := by
      rw [← hbd]; exact mapGet_indexOf_mem F h3 b hb
    simp only [content, Prod.mk.injEq] at hcb
    simp [classify, hget, hcb.2.1, hcb.2.2.1, hcb.2.2.2.1, hcb.2.2.2.2]
  have hB : (indexOf F).filter (fun e => decide (e.1 ∉ D.map (fun d => d.Domain))) = [] := by
    rw [List.filter_eq_nil_iff]
    intro e he
    simp only [indexOf, List.mem_map] at he
    obtain ⟨b, hb, rfl⟩ := he
    obtain ⟨d, hd, hcd⟩ := h1 b hb
    have hbd : b.Domain = d.Domain := congrArg Prod.fst hcd
    simp only [decide_not, Bool.not_eq_true', decide_eq_false_iff_not, not_not]
    exact List.mem_map.mpr ⟨d, hd, hbd.symm⟩
  rw [hA, hB, (ro.perm []).eq_nil]
  rfl

theorem length_le_sum (l : List Nat) (n : Nat) (h : n ∈ l) : n ≤ l.sum := by
  induction l with
  | nil => simp at h
  | cons a l ih =>
    simp only [List.sum_cons]
    rcases List.mem_cons.mp h with h | h
    · subst h; exact Nat.le_add_right _ _
    · exact le_trans (ih h) (Nat.le_add_left _ _)

theorem freshID_not_mem (store : List DomainBlock) :
    freshID store ∉ store.map (fun b => b.ID) := by
  intro h
  obtain ⟨b, hb, hbid⟩ := List.mem_map.mp h
  have h1 : b.ID.length ≤ (store.map (fun b => b.ID.length)).sum :=
    length_le_sum _ _ (List.mem_map.mpr ⟨b, hb, rfl⟩)
  have h2 : (freshID store).length = (store.map (fun b => b.ID.length)).sum + 1 := by
    unfold freshID
    show (List.replicate _ 'n').length = _
    exact List.length_replicate _ _
  rw [← hbid] at h2
  omega

end mastodon

namespace mastodon

theorem success_trace (ro : RangeOrder) (remote : Remote) (D S : List DomainBlock)
    (hdom : (S.map (fun b => b.Domain)).Nodup) (hD : (D.map (fun d => d.Domain)).Nodup)
    (hread : getDomainBlocks remote = .ok (S.map some))
    (hok : ∀ k, callResult (remote.mutation k) = none) :
    syncInternalData ro remote D =
      (D.flatMap (classify (indexOf S)) ++
        (ro.order ((indexOf S).filter
          (fun e => decide (e.1 ∉ D.map (fun d => d.Domain))))).map
            (fun e => Call.delete e.2.ID), Outcome.ok) := by
  rw [syncInternalData_eq ro remote D _ _ hread (indexByDomain_of_nodup S hdom),
    execCalls_all_ok remote hok, planDesired_fst _ _ hD, planDesired_snd]

theorem deletes_mem (ro : RangeOrder) (D S : List DomainBlock) (c : Call) :
    c ∈ (ro.order ((indexOf S).filter
        (fun e => decide (e.1 ∉ D.map (fun d => d.Domain))))).map
          (fun e => Call.delete e.2.ID) ↔
      ∃ x ∈ S, x.Domain ∉ D.map (fun d => d.Domain) ∧ c = Call.delete x.ID := by
  simp only [List.mem_map, (ro.perm _).mem_iff, List.mem_filter, indexOf, decide_eq_true_eq]
  constructor
  · rintro ⟨e, ⟨⟨x, hx, rfl⟩, he⟩, rfl⟩
    exact ⟨x, hx, he, rfl⟩
  · rintro ⟨x, hx, hxd, rfl⟩
    exact ⟨(x.Domain, x), ⟨⟨x, hx, rfl⟩, hxd⟩, rfl⟩

theorem mapGet_append (a b : GoMap) (k : String) :
    mapGet (a ++ b) k = match mapGet a k with
      | some v => some v
      | none => mapGet b k := by
  induction a with
  | nil => rfl
  | cons e a ih =>
    obtain ⟨x, v⟩ := e
    by_cases hx : x = k
    · simp [mapGet, hx]
    · simp [mapGet, hx, ih]

theorem mapGet_mapSet (m : GoMap) (k key : String) (v : DomainBlock) :
    mapGet (mapSet m k v) key = if k = key then some v else mapGet m key := by
  unfold mapSet
  rw [mapGet_append]
  by_cases h : k = key
  · subst h
    rw [mapGet_mapDelete_self]
    simp [mapGet]
  · rw [mapGet_mapDelete_ne m k key h]
    cases mapGet m key <;> simp [mapGet, h]

theorem mapGet_foldl_mapSet (cur : List DomainBlock) (m : GoMap) (k : String) :
    mapGet (cur.foldl (fun m b => mapSet m b.Domain b) m) k =
      match cur.reverse.find? (fun b => decide (b.Domain = k)) with
      | some b => some b
      | none => mapGet m k := by
  induction cur generalizing m with
  | nil => rfl
  | cons b rest ih =>
    rw [List.foldl_cons, ih, List.reverse_cons, List.find?_append, mapGet_mapSet]
    cases rest.reverse.find? (fun b => decide (b.Domain = k)) with
    | some x => rfl
    | none =>
      by_cases hb : b.Domain = k <;> simp [List.find?, hb]

theorem mem_iff_mapGet (m : GoMap) (hnd : (m.map Prod.fst).Nodup) (k : String)
    (v : DomainBlock) : (k, v) ∈ m ↔ mapGet m k = some v := by
  induction m with
  | nil => simp [mapGet]
  | cons e m ih =>
    obtain ⟨x, w⟩ := e
    rw [List.map_cons, List.nodup_cons] at hnd
    by_cases hx : x = k
    · subst hx
      have hnot : ∀ u, (x, u) ∉ m := fun u hu => hnd.1 (List.mem_map.mpr ⟨(x, u), hu, rfl⟩)
      simp [mapGet, hnot, eq_comm]
    · have hne : ¬ (k = x) := fun h => hx h.symm
      simp [mapGet, hx, hne, ih hnd.2]

theorem index_lookup (cur : List DomainBlock) (k : String) :
    mapGet (cur.foldl (fun m b => mapSet m b.Domain b) []) k =
      cur.reverse.find? (fun b => decide (b.Domain = k)) := by
  rw [mapGet_foldl_mapSet]
  cases cur.reverse.find? (fun b => decide (b.Domain = k)) <;> rfl

/-- C1, reconciler classification: when the list request answers the blocks
`cur`, every mutation request succeeds and the desired domains are pairwise
distinct, the calls of `syncInternalData` are, in desired-list order, what
`classify` owes each desired entry against the index built from `cur` (one
create carrying the fields of the entry when the index has no entry for its
domain, one update addressed to the identifier of the current entry and
carrying severity, flags and comment of the desired entry when one of these
four differs, nothing when all four agree), followed by delete calls only.
The entry of the index for a domain is the last block of `cur` with that
domain, and there is none when `cur` has no block with that domain. -/
theorem C1_classification (ro : RangeOrder) (remote : Remote) (desired cur : List DomainBlock)
    (hread : getDomainBlocks remote = .ok (cur.map some))
    (hok : ∀ k, callResult (remote.mutation k) = none)
    (hnd : (desired.map (fun d => d.Domain)).Nodup) :
    ∃ index dels, indexByDomain (cur.map some) [] = some index ∧
      (∀ k, mapGet index k = cur.reverse.find? (fun b => decide (b.Domain = k))) ∧
      syncInternalData ro remote desired =
        (desired.flatMap (classify index) ++ dels, Outcome.ok) ∧
      ∀ c ∈ dels, ∃ id, c = Call.delete id := by
  refine ⟨_, (ro.order (planDesired desired
    (cur.foldl (fun m b => mapSet m b.Domain b) [])).2).map (fun e => Call.delete e.2.ID),
    indexByDomain_map_some cur [], index_lookup cur, ?_, ?_⟩
  · rw [syncInternalData_eq ro remote desired _ _ hread (indexByDomain_map_some cur []),
      execCalls_all_ok remote hok, planDesired_fst _ _ hnd]
  · intro c hc
    simp only [List.mem_map] at hc
    obtain ⟨e, -, rfl⟩ := hc
    exact ⟨_, rfl⟩

/-- Witness of C1 on the example states: `a.com` is updated under identifier
7, `bad.example` is created, `same.com` gets no call, and the one delete
follows. -/
theorem C1_classification_witness :
    (∃ index dels, indexByDomain (exampleCurrent.map some) [] = some index ∧
      (∀ k, mapGet index k =
        exampleCurrent.reverse.find? (fun b => decide (b.Domain = k))) ∧
      syncInternalData RangeOrder.stored (Remote.answering exampleCurrent allOk)
          exampleDesired =
        (exampleDesired.flatMap (classify index) ++ dels, Outcome.ok) ∧
      ∀ c ∈ dels, ∃ id, c = Call.delete id) ∧
    syncInternalData RangeOrder.stored (Remote.answering exampleCurrent allOk)
        exampleDesired =
      ([Call.update "7" "silence" false false "",
        Call.create "bad.example" "suspend" true false "",
        Call.delete "3"], Outcome.ok) :=
  ⟨C1_classification RangeOrder.stored (Remote.answering exampleCurrent allOk) exampleDesired
    exampleCurrent rfl (fun _ => rfl) (by decide), by decide⟩

/-- C2, reconciler deletions: when the list request answers the blocks `cur`
and every mutation request succeeds, the calls of `syncInternalData` are calls
that are not deletes followed by delete calls, and the delete calls are, up to
order, one per entry of the index whose domain does not occur in the desired
list, addressed to the identifier of that entry; entries whose domain occurs
in the desired list contribute none.  The index has pairwise distinct keys,
each the domain of its block; its entries are exactly, for each domain that
occurs in `cur`, the last block of `cur` with that domain.  When the domains
of `cur` are pairwise distinct, the delete calls are, up to order, one per
block of `cur` whose domain does not occur in the desired list. -/
theorem C2_deletions (ro : RangeOrder) (remote : Remote) (desired cur : List DomainBlock)
    (hread : getDomainBlocks remote = .ok (cur.map some))
    (hok : ∀ k, callResult (remote.mutation k) = none) :
    ∃ index ups dels, indexByDomain (cur.map some) [] = some index ∧
      ((index.map Prod.fst).Nodup ∧ ∀ e ∈ index, e.1 = e.2.Domain ∧ e.2 ∈ cur) ∧
      (∀ e, e ∈ index ↔
        cur.reverse.find? (fun b => decide (b.Domain = e.1)) = some e.2) ∧
      syncInternalData ro remote desired = (ups ++ dels, Outcome.ok) ∧
      (∀ c ∈ ups, ∀ id, c ≠ Call.delete id) ∧
      dels.Perm ((index.filter (fun e => decide (e.1 ∉ desired.map (fun d => d.Domain)))).map
        (fun e => Call.delete e.2.ID)) ∧
      ((cur.map (fun b => b.Domain)).Nodup →
        dels.Perm ((cur.filter
          (fun b => decide (b.Domain ∉ desired.map (fun d => d.Domain)))).map
            (fun b => Call.delete b.ID))) := by
  have hinv := foldl_mapSet_inv cur [] cur (fun _ h => h) ⟨by simp, by simp⟩
  refine ⟨_, (planDesired desired (cur.foldl (fun m b => mapSet m b.Domain b) [])).1,
    (ro.order (planDesired desired
      (cur.foldl (fun m b => mapSet m b.Domain b) [])).2).map (fun e => Call.delete e.2.ID),
    indexByDomain_map_some cur [], hinv, ?_, ?_, ?_, ?_, ?_⟩
  · rintro ⟨k, v⟩
    rw [mem_iff_mapGet _ hinv.1, index_lookup]
  · rw [syncInternalData_eq ro remote desired _ _ hread (indexByDomain_map_some cur []),
      execCalls_all_ok remote hok]
  · exact planDesired_no_delete _ _
  · rw [planDesired_snd]
    exact (ro.perm _).map _
  · intro hcur
    rw [planDesired_snd, foldl_mapSet_of_nodup cur [] hcur (by simp)]
    refine ((ro.perm _).map _).trans ?_
    simp only [List.nil_append, indexOf, List.filter_map, List.map_map]
    exact List.Perm.refl _

/-- Witness of C2 on the example states: the one delete is addressed to
identifier 3, of `old.com`. -/
theorem C2_deletions_witness :
    (∃ index ups dels, indexByDomain (exampleCurrent.map some) [] = some index ∧
      ((index.map Prod.fst).Nodup ∧
        ∀ e ∈ index, e.1 = e.2.Domain ∧ e.2 ∈ exampleCurrent) ∧
      (∀ e, e ∈ index ↔
        exampleCurrent.reverse.find? (fun b => decide (b.Domain = e.1)) = some e.2) ∧
      syncInternalData RangeOrder.stored (Remote.answering exampleCurrent allOk)
          exampleDesired = (ups ++ dels, Outcome.ok) ∧
      (∀ c ∈ ups, ∀ id, c ≠ Call.delete id) ∧
      dels.Perm ((index.filter
        (fun e => decide (e.1 ∉ exampleDesired.map (fun d => d.Domain)))).map
          (fun e => Call.delete e.2.ID)) ∧
      ((exampleCurrent.map (fun b => b.Domain)).Nodup →
        dels.Perm ((exampleCurrent.filter
          (fun b => decide (b.Domain ∉ exampleDesired.map (fun d => d.Domain)))).map
            (fun b => Call.delete b.ID)))) ∧
    (exampleCurrent.filter
        (fun b => decide (b.Domain ∉ exampleDesired.map (fun d => d.Domain)))).map
          (fun b => Call.delete b.ID) = [Call.delete "3"] ∧
    syncInternalData RangeOrder.stored
        (Remote.answering [⟨"3", "old.com", "suspend", false, false, ""⟩] allOk) [] =
      ([Call.delete "3"], Outcome.ok) :=
  ⟨C2_deletions RangeOrder.stored (Remote.answering exampleCurrent allOk) exampleDesired
    exampleCurrent rfl (fun _ => rfl), by decide, by decide⟩

/-- C8, convergence: let the desired domains be pairwise distinct, let the
remote store hold one block per domain under pairwise distinct identifiers,
and let every create be stored under an identifier no stored block has.  When
the list request answers the store and every mutation request succeeds,
`syncInternalData` ends without error; applying its calls to the store leaves
a store with exactly the desired domains, each with the desired severity,
flags and comment; and a second `syncInternalData` of the same desired list
that reads this store (listed in any order) makes no call. -/
theorem C8_convergence (ro ro2 : RangeOrder) (remote remote2 : Remote)
    (alloc : List DomainBlock → String) (desired store cur2 : List DomainBlock)
    (hD : (desired.map (fun d => d.Domain)).Nodup)
    (hdom : (store.map (fun b => b.Domain)).Nodup)
    (hid : (store.map (fun b => b.ID)).Nodup)
    (halloc : ∀ s, alloc s ∉ s.map (fun b => b.ID))
    (hread : getDomainBlocks remote = .ok (store.map some))
    (hok : ∀ k, callResult (remote.mutation k) = none)
    (hlist : cur2.Perm (applyCalls alloc store (syncInternalData ro remote desired).1))
    (hread2 : getDomainBlocks remote2 = .ok (cur2.map some)) :
    (syncInternalData ro remote desired).2 = Outcome.ok ∧
    ((applyCalls alloc store (syncInternalData ro remote desired).1).map content).Perm
      (desired.map content) ∧
    syncInternalData ro2 remote2 desired = ([], Outcome.ok) := by
  rw [success_trace ro remote desired store hdom hD hread hok] at hlist ⊢
  obtain ⟨h1, h2, h3⟩ := final_store alloc store desired _ hdom hid hD halloc
    (deletes_mem ro desired store)
  refine ⟨rfl, contents_perm _ _ hD h1 h2 h3, ?_⟩
  apply second_run ro2 remote2 cur2 desired hD _ _ _ hread2
  · intro b hb
    exact h1 b (hlist.subset hb)
  · intro d hd
    obtain ⟨b, hb, hcb⟩ := h2 d hd
    exact ⟨b, hlist.symm.subset hb, hcb⟩
  · exact ((hlist.map _).nodup_iff).mpr h3

/-- Witness of C8 on the example states, with `freshID` as allocator. -/
theorem C8_convergence_witness :
    (syncInternalData RangeOrder.stored (Remote.answering exampleCurrent allOk)
        exampleDesired).2 = Outcome.ok ∧
    ((applyCalls freshID exampleCurrent
        (syncInternalData RangeOrder.stored (Remote.answering exampleCurrent allOk)
          exampleDesired).1).map content).Perm (exampleDesired.map content) ∧
    syncInternalData RangeOrder.stored
        (Remote.answering (applyCalls freshID exampleCurrent
          (syncInternalData RangeOrder.stored (Remote.answering exampleCurrent allOk)
            exampleDesired).1) allOk) exampleDesired = ([], Outcome.ok) :=
  C8_convergence RangeOrder.stored RangeOrder.stored (Remote.answering exampleCurrent allOk)
    (Remote.answering (applyCalls freshID exampleCurrent
      (syncInternalData RangeOrder.stored (Remote.answering exampleCurrent allOk)
        exampleDesired).1) allOk)
    freshID exampleDesired exampleCurrent _ (by decide) (by decide) (by decide)
    freshID_not_mem rfl (fun _ => rfl) (List.Perm.refl _) rfl

/-- C9, fail-fast without rollback: when the list request answers the blocks
`cur`, the mutation requests before the one made after `k` earlier ones
succeed, that one fails with `err`, and the run in which every request
succeeds makes more than `k` calls, then `syncInternalData` returns the error
`err` and its calls are exactly the first `k + 1` calls of the all-success
run: the `k` calls that succeeded, then the failing call, and nothing after
it (no further mutation, no compensating call). -/
theorem C9_fail_fast (ro : RangeOrder) (remote : Remote) (desired cur : List DomainBlock)
    (k : Nat) (err : String)
    (hread : getDomainBlocks remote = .ok (cur.map some))
    (hprev : ∀ i, i < k → callResult (remote.mutation i) = none)
    (hfail : callResult (remote.mutation k) = some err)
    (hk : k < (syncInternalData ro remote.allSucceed desired).1.length) :
    (syncInternalData ro remote.allSucceed desired).2 = Outcome.ok ∧
    syncInternalData ro remote desired =
      ((syncInternalData ro remote.allSucceed desired).1.take (k + 1), Outcome.error err) := by
  have hread2 : getDomainBlocks remote.allSucceed = .ok (cur.map some) := hread
  have hall : ∀ j, callResult (remote.allSucceed.mutation j) = none := fun _ => rfl
  have hs := syncInternalData_eq ro remote.allSucceed desired _ _ hread2
    (indexByDomain_map_some cur [])
  rw [execCalls_all_ok _ hall] at hs
  simp only at hs
  rw [hs] at hk ⊢
  refine ⟨rfl, ?_⟩
  rw [syncInternalData_eq ro remote desired _ _ hread (indexByDomain_map_some cur []),
    execCalls_fail remote _ 0 k err (by simpa using hprev) (by simpa using hfail) hk]

/-- Witness of C9 on the example states: the second request is answered with
status 500, so the update and the create are attempted and the delete is not. -/
theorem C9_fail_fast_witness :
    (syncInternalData RangeOrder.stored
        (Remote.answering exampleCurrent failingSecond).allSucceed exampleDesired).2 =
      Outcome.ok ∧
    syncInternalData RangeOrder.stored (Remote.answering exampleCurrent failingSecond)
        exampleDesired =
      ((syncInternalData RangeOrder.stored
        (Remote.answering exampleCurrent failingSecond).allSucceed exampleDesired).1.take
          (1 + 1), Outcome.error "500: boom") :=
  C9_fail_fast RangeOrder.stored (Remote.answering exampleCurrent failingSecond)
    exampleDesired exampleCurrent 1 "500: boom" rfl (by decide) (by decide) (by decide)

end mastodon

/-! ## Theorems: the translator, nil rules and the list request -/

namespace mastodon

theorem translateLoop_map_some (rules : List data.DomainBlock) (blocks : List DomainBlock) :
    translateLoop (rules.map some) blocks =
      some (blocks ++ rules.flatMap (fun r => r.Domains.map (fun domain =>
        (⟨"", domain, r.Severity, r.RejectMedia, r.RejectReports, r.Reason⟩ :
          DomainBlock)))) := by
  induction rules generalizing blocks with
  | nil => simp [translateLoop]
  | cons r rs ih =>
    simp only [List.map_cons, translateLoop, ih, List.flatMap_cons, List.append_assoc]

/-- C11, translator: on every list of rules `translateData` returns, and its
output is, rule after rule and within a rule domain after domain, one flat
block per listed domain, with that domain, the severity, reject-media and
reject-reports of the rule, the reason of the rule as public comment, and an
empty identifier; so its length is the sum of the lengths of the domain
lists. -/
theorem C11_translateData_flat_blocks (rules : List data.DomainBlock) :
    ∃ out, translateData ⟨rules.map some⟩ = some out ∧
      out = rules.flatMap (fun r => r.Domains.map (fun domain =>
        (⟨"", domain, r.Severity, r.RejectMedia, r.RejectReports, r.Reason⟩ :
          DomainBlock))) ∧
      out.length = (rules.map (fun r => r.Domains.length)).sum := by
  refine ⟨_, ?_, rfl, ?_⟩
  · unfold translateData
    rw [translateLoop_map_some]
    simp
  · induction rules with
    | nil => rfl
    | cons r rs ih => simp [List.flatMap_cons, ih]

/-- C12, the code at the failing input: a feed whose `domain_blocks` list holds
a valid rule and a null entry.  `Sanitize` dereferences the nil pointer at
`block.Domains` and panics, and so does `SyncData`, before any request is
made.  The other malformed shapes are handled: a rule with an absent domain
list is dropped, and an absent `domain_blocks` list gives an empty output. -/
theorem C12_nil_rule_panics :
    data.Sanitize ⟨[some ⟨["a.com"], "suspend", false, false, ""⟩, none]⟩ = none ∧
    SyncData RangeOrder.stored (Remote.answering [] allOk)
      ⟨[some ⟨["a.com"], "suspend", false, false, ""⟩, none]⟩ =
        ([], Outcome.nilDereference) ∧
    data.Sanitize ⟨[some ⟨[], "suspend", false, false, ""⟩]⟩ = some ⟨[]⟩ ∧
    data.Sanitize ⟨[]⟩ = some ⟨[]⟩ := by
  decide

/-- C13, the code at the failing input: the list request is answered with
status 500 and the body `[]`.  `getDomainBlocks` never reads the status code:
it returns the empty list with no error, and `syncInternalData` goes on to
create the desired block.  The three mutation calls do check the status: the
same status with body `boom` makes each of them return the error
`500: boom`. -/
theorem C13_list_call_ignores_status :
    getDomainBlocks ⟨decodeEmptyArray, .ok ⟨500, "[]"⟩, allOk⟩ = .ok [] ∧
    syncInternalData RangeOrder.stored ⟨decodeEmptyArray, .ok ⟨500, "[]"⟩, allOk⟩
        [⟨"", "a.com", "silence", false, false, ""⟩] =
      ([Call.create "a.com" "silence" false false ""], Outcome.ok) ∧
    (createDomainBlock (Remote.answering [] failingAll) 0
        ⟨"", "a.com", "silence", false, false, ""⟩).2 = some "500: boom" ∧
    (updateDomainBlock (Remote.answering [] failingAll) 0 "7"
        ⟨"", "a.com", "silence", false, false, ""⟩).2 = some "500: boom" ∧
    (deleteDomainBlock (Remote.answering [] failingAll) 0 "7").2 = some "500: boom" := by
  refine ⟨rfl, ?_⟩
  decide

/-- C14, a failed read aborts the cycle: when the list request cannot be
made (transport error `err`), or its body cannot be decoded (decoding error
`err`), `getDomainBlocks` returns `err`, and `syncInternalData` returns `err`
for every desired list without attempting any create, update or delete. -/
theorem C14_read_failure_aborts (ro : RangeOrder) (remote : Remote)
    (desired : List DomainBlock) (err : String)
    (h : remote.list = .error err ∨
      ∃ resp, remote.list = .ok resp ∧ remote.decode resp.Body = .error err) :
    getDomainBlocks remote = .error err ∧
      syncInternalData ro remote desired = ([], Outcome.error err) := by
  have hg : getDomainBlocks remote = .error err := by
    unfold getDomainBlocks
    rcases h with h | ⟨resp, h1, h2⟩
    · rw [h]
    · rw [h1]; exact h2
  refine ⟨hg, ?_⟩
  unfold syncInternalData
  rw [hg]

/-- Witness of C14: the list answer has status 200 and a body that is not
JSON. -/
theorem C14_read_failure_aborts_witness :
    getDomainBlocks ⟨decodeEmptyArray, .ok ⟨200, "boom"⟩, allOk⟩ =
        .error "cannot unmarshal" ∧
      syncInternalData RangeOrder.stored ⟨decodeEmptyArray, .ok ⟨200, "boom"⟩, allOk⟩
        exampleDesired = ([], Outcome.error "cannot unmarshal") :=
  C14_read_failure_aborts RangeOrder.stored ⟨decodeEmptyArray, .ok ⟨200, "boom"⟩, allOk⟩
    exampleDesired "cannot unmarshal" (Or.inr ⟨⟨200, "boom"⟩, rfl, rfl⟩)

end mastodon

/-! ## Theorems: ordering, error text and repeated desired domains -/

namespace mastodon

theorem planDesired_cons_none (nb : DomainBlock) (rest : List DomainBlock) (m : GoMap)
    (h : mapGet m nb.Domain = none) :
    planDesired (nb :: rest) m = (createCall nb :: (planDesired rest m).1,
      (planDesired rest m).2) := by
  rw [planDesired, h]

theorem planDesired_cons_some (nb cur : DomainBlock) (rest : List DomainBlock) (m : GoMap)
    (h : mapGet m nb.Domain = some cur) :
    planDesired (nb :: rest) m =
      if differs cur nb = true then
        (updateCall cur.ID nb :: (planDesired rest (mapDelete m nb.Domain)).1,
          (planDesired rest (mapDelete m nb.Domain)).2)
      else planDesired rest (mapDelete m nb.Domain) := by
  rw [planDesired, h]

theorem planDesired_append (L1 L2 : List DomainBlock) (m : GoMap) :
    planDesired (L1 ++ L2) m =
      ((planDesired L1 m).1 ++ (planDesired L2 (planDesired L1 m).2).1,
        (planDesired L2 (planDesired L1 m).2).2) := by
  induction L1 generalizing m with
  | nil => simp [planDesired]
  | cons nb rest ih =>
    simp only [List.cons_append]
    cases hget : mapGet m nb.Domain with
    | none =>
      rw [planDesired_cons_none _ _ _ hget, planDesired_cons_none _ _ _ hget, ih]
      rfl
    | some cur =>
      rw [planDesired_cons_some _ _ _ _ hget, planDesired_cons_some _ _ _ _ hget, ih]
      by_cases hd : differs cur nb = true
      · simp only [hd, if_true]; rfl
      · simp only [hd, Bool.false_eq_true, if_false]

theorem mapGet_after (L : List DomainBlock) (m : GoMap) (x : DomainBlock) (hx : x ∈ L) :
    mapGet (planDesired L m).2 x.Domain = none := by
  rw [planDesired_snd, mapGet_eq_none_iff]
  intro e he heq
  have := (List.mem_filter.mp he).2
  simp only [decide_eq_true_eq] at this
  exact this (heq ▸ List.mem_map.mpr ⟨x, hx, rfl⟩)

theorem planDesired_owned (D : List DomainBlock) (m : GoMap) :
    ∃ per : List (List Call),
      List.Forall₂ (fun d cs => cs = [] ∨ cs = [createCall d] ∨ ∃ id, cs = [updateCall id d])
        D per ∧ (planDesired D m).1 = per.flatten := by
  induction D generalizing m with
  | nil => exact ⟨[], List.Forall₂.nil, rfl⟩
  | cons nb rest ih =>
    cases hget : mapGet m nb.Domain with
    | none =>
      obtain ⟨per, hper, heq⟩ := ih m
      exact ⟨[createCall nb] :: per, List.Forall₂.cons (Or.inr (Or.inl rfl)) hper, by
        rw [planDesired_cons_none _ _ _ hget]; simp [heq]⟩
    | some cur =>
      obtain ⟨per, hper, heq⟩ := ih (mapDelete m nb.Domain)
      by_cases hd : differs cur nb = true
      · exact ⟨[updateCall cur.ID nb] :: per,
          List.Forall₂.cons (Or.inr (Or.inr ⟨_, rfl⟩)) hper, by
            rw [planDesired_cons_some _ _ _ _ hget]; simp [hd, heq]⟩
      · exact ⟨[] :: per, List.Forall₂.cons (Or.inl rfl) hper, by
          rw [planDesired_cons_some _ _ _ _ hget]; simp [hd, heq]⟩

theorem execCalls_prefix (remote : Remote) (cs : List Call) (k : Nat) :
    (execCalls remote cs k).1 <+: cs := by
  induction cs generalizing k with
  | nil => exact List.prefix_refl _
  | cons c cs ih =>
    unfold execCalls
    cases hc : callResult (remote.mutation k) with
    | some err =>
      exact ⟨cs, rfl⟩
    | none =>
      obtain ⟨t, ht⟩ := ih (k + 1)
      exact ⟨t, by simp [ht]⟩

theorem syncInternalData_calls (ro : RangeOrder) (remote : Remote) (D : List DomainBlock)
    (cur : List (Option DomainBlock)) (idx : GoMap)
    (hread : getDomainBlocks remote = .ok cur) (hidx : indexByDomain cur [] = some idx) :
    (syncInternalData ro remote D).1 =
      (execCalls remote ((planDesired D idx).1 ++
          (ro.order (planDesired D idx).2).map (fun e => Call.delete e.2.ID)) 0).1 := by
  rw [syncInternalData_eq ro remote D cur idx hread hidx]
  cases hx : execCalls remote ((planDesired D idx).1 ++
      (ro.order (planDesired D idx).2).map (fun e => Call.delete e.2.ID)) 0 with
  | mk t r => cases r <;> rfl

theorem outcome_of_first_failure (ro : RangeOrder) (remote : Remote)
    (desired cur : List DomainBlock) (k : Nat) (err : String)
    (hread : getDomainBlocks remote = .ok (cur.map some))
    (hprev : ∀ i, i < k → callResult (remote.mutation i) = none)
    (hfail : callResult (remote.mutation k) = some err)
    (hk : k < (syncInternalData ro remote.allSucceed desired).1.length) :
    (syncInternalData ro remote desired).2 = Outcome.error err := by
  have hread2 : getDomainBlocks remote.allSucceed = .ok (cur.map some) := hread
  have hall : ∀ j, callResult (remote.allSucceed.mutation j) = none := fun _ => rfl
  have hs := syncInternalData_eq ro remote.allSucceed desired _ _ hread2
    (indexByDomain_map_some cur [])
  rw [execCalls_all_ok _ hall] at hs
  simp only at hs
  rw [hs] at hk
  rw [syncInternalData_eq ro remote desired _ _ hread (indexByDomain_map_some cur []),
    execCalls_fail remote _ 0 k err (by simpa using hprev) (by simpa using hfail) hk]

/-- C15, mutation ordering: when the list request answers the blocks `cur`,
the calls of `syncInternalData` are an initial segment of a sequence made of
one group per desired entry, in desired-list order (each group empty, or the
create of that entry, or one update carrying its fields), followed by delete
calls only; when every mutation request succeeds they are the whole sequence.
So the call for an earlier desired entry precedes the call for a later one,
and every delete comes after all creates and updates. -/
theorem C15_mutation_ordering (ro : RangeOrder) (remote : Remote)
    (desired cur : List DomainBlock)
    (hread : getDomainBlocks remote = .ok (cur.map some)) :
    ∃ (per : List (List Call)) (dels : List Call),
      List.Forall₂ (fun d cs => cs = [] ∨
          cs = [Call.create d.Domain d.Severity d.RejectMedia d.RejectReports d.PublicComment] ∨
          ∃ id, cs = [Call.update id d.Severity d.RejectMedia d.RejectReports d.PublicComment])
        desired per ∧
      (∀ c ∈ dels, ∃ id, c = Call.delete id) ∧
      (syncInternalData ro remote desired).1 <+: per.flatten ++ dels ∧
      ((∀ k, callResult (remote.mutation k) = none) →
        (syncInternalData ro remote desired).1 = per.flatten ++ dels) := by
  obtain ⟨per, hper, heq⟩ := planDesired_owned desired
    (cur.foldl (fun m b => mapSet m b.Domain b) [])
  refine ⟨per, (ro.order (planDesired desired
    (cur.foldl (fun m b => mapSet m b.Domain b) [])).2).map (fun e => Call.delete e.2.ID),
    hper, ?_, ?_, ?_⟩
  · intro c hc
    obtain ⟨e, -, rfl⟩ := List.mem_map.mp hc
    exact ⟨_, rfl⟩
  · rw [syncInternalData_calls ro remote desired _ _ hread (indexByDomain_map_some cur []),
      ← heq]
    exact execCalls_prefix _ _ _
  · intro hok
    rw [syncInternalData_calls ro remote desired _ _ hread (indexByDomain_map_some cur []),
      execCalls_all_ok remote hok, ← heq]

/-- Witness of C15 on the example states, with the second request failing. -/
theorem C15_mutation_ordering_witness :
    ∃ (per : List (List Call)) (dels : List Call),
      List.Forall₂ (fun d cs => cs = [] ∨
          cs = [Call.create d.Domain d.Severity d.RejectMedia d.RejectReports d.PublicComment] ∨
          ∃ id, cs = [Call.update id d.Severity d.RejectMedia d.RejectReports d.PublicComment])
        exampleDesired per ∧
      (∀ c ∈ dels, ∃ id, c = Call.delete id) ∧
      (syncInternalData RangeOrder.stored (Remote.answering exampleCurrent failingSecond)
        exampleDesired).1 <+: per.flatten ++ dels ∧
      ((∀ k, callResult ((Remote.answering exampleCurrent failingSecond).mutation k) = none) →
        (syncInternalData RangeOrder.stored (Remote.answering exampleCurrent failingSecond)
          exampleDesired).1 = per.flatten ++ dels) :=
  C15_mutation_ordering RangeOrder.stored (Remote.answering exampleCurrent failingSecond)
    exampleDesired exampleCurrent rfl

/-- C17, counterexample: a create for `bad.example` that fails and a delete
of the block of `old.com` that fails, both answered with status 500 and body
`boom`, make `syncInternalData` return the same error `500: boom`; this text
contains neither domain and neither operation name, so the returned error
does not describe the operation or the domain. -/
theorem C17_error_names_neither_operation_nor_domain :
    syncInternalData RangeOrder.stored (Remote.answering [] failingAll)
        [⟨"", "bad.example", "suspend", true, false, ""⟩] =
      ([Call.create "bad.example" "suspend" true false ""], Outcome.error "500: boom") ∧
    syncInternalData RangeOrder.stored
        (Remote.answering [⟨"3", "old.com", "suspend", false, false, ""⟩] failingAll) [] =
      ([Call.delete "3"], Outcome.error "500: boom") ∧
    strings.Contains "500: boom" "bad.example" = false ∧
    strings.Contains "500: boom" "old.com" = false ∧
    strings.Contains "500: boom" "create" = false ∧
    strings.Contains "500: boom" "delete" = false := by
  decide

/-- C17, amended: when the list request answers the blocks `cur`, the
mutation requests before the one made after `k` earlier ones succeed and the
all-success run makes more than `k` calls, the error `syncInternalData`
returns is the error of that call, unchanged: the transport error when the
request could not be made, or the status code and body text, as
`<status>: <body>`, when the answer is outside 200..299.  `SyncData` returns
what `syncInternalData` returns on the translated, sanitized feed. -/
theorem C17_error_is_the_call_error (ro : RangeOrder) (remote : Remote)
    (desired cur : List DomainBlock) (k : Nat)
    (hread : getDomainBlocks remote = .ok (cur.map some))
    (hprev : ∀ i, i < k → callResult (remote.mutation i) = none)
    (hk : k < (syncInternalData ro remote.allSucceed desired).1.length) :
    (∀ e, remote.mutation k = .error e →
      (syncInternalData ro remote desired).2 = Outcome.error e) ∧
    (∀ resp, remote.mutation k = .ok resp →
      (resp.StatusCode < 200 ∨ resp.StatusCode > 299) →
      (syncInternalData ro remote desired).2 =
        Outcome.error (toString resp.StatusCode ++ ": " ++ resp.Body)) ∧
    (∀ raw sanitized, data.Sanitize raw = some sanitized →
      translateData sanitized = some desired →
      SyncData ro remote raw = syncInternalData ro remote desired) := by
  refine ⟨?_, ?_, ?_⟩
  · intro e he
    exact outcome_of_first_failure ro remote desired cur k e hread hprev
      (by rw [he]; rfl) hk
  · intro resp hresp hst
    exact outcome_of_first_failure ro remote desired cur k _ hread hprev
      (by rw [hresp]; simp [callResult, hst]) hk
  · intro raw sanitized h1 h2
    simp [SyncData, h1, h2]

/-- Witness of C17, amended, on the example states with the second request
answered by status 500. -/
theorem C17_error_is_the_call_error_witness :
    (∀ e, failingSecond 1 = .error e →
      (syncInternalData RangeOrder.stored (Remote.answering exampleCurrent failingSecond)
        exampleDesired).2 = Outcome.error e) ∧
    (∀ resp, failingSecond 1 = .ok resp →
      (resp.StatusCode < 200 ∨ resp.StatusCode > 299) →
      (syncInternalData RangeOrder.stored (Remote.answering exampleCurrent failingSecond)
        exampleDesired).2 =
        Outcome.error (toString resp.StatusCode ++ ": " ++ resp.Body)) ∧
    (∀ raw sanitized, data.Sanitize raw = some sanitized →
      translateData sanitized = some exampleDesired →
      SyncData RangeOrder.stored (Remote.answering exampleCurrent failingSecond) raw =
        syncInternalData RangeOrder.stored (Remote.answering exampleCurrent failingSecond)
          exampleDesired) :=
  C17_error_is_the_call_error RangeOrder.stored
    (Remote.answering exampleCurrent failingSecond) exampleDesired exampleCurrent 1 rfl
    (by decide) (by decide)

/-- C19, repeated desired domain: when the list request answers the blocks
`cur` and every mutation request succeeds, and the desired list holds `x` and
later `y` with the same domain, `syncInternalData` makes for `y` a create
carrying the fields of `y`, whatever `cur` holds.  The calls before it,
`pre`, are the creates and updates of the run on the entries before `y`. -/
theorem C19_repeated_domain_created (ro : RangeOrder) (remote : Remote)
    (A B C cur : List DomainBlock) (x y : DomainBlock)
    (hread : getDomainBlocks remote = .ok (cur.map some))
    (hok : ∀ k, callResult (remote.mutation k) = none)
    (hxy : x.Domain = y.Domain) :
    ∃ pre post dels,
      syncInternalData ro remote (A ++ x :: (B ++ y :: C)) =
        (pre ++ Call.create y.Domain y.Severity y.RejectMedia y.RejectReports
          y.PublicComment :: post, Outcome.ok) ∧
      syncInternalData ro remote (A ++ x :: B) = (pre ++ dels, Outcome.ok) ∧
      (∀ c ∈ pre, ∀ id, c ≠ Call.delete id) ∧
      (∀ c ∈ dels, ∃ id, c = Call.delete id) := by
  have hsplit : A ++ x :: (B ++ y :: C) = (A ++ x :: B) ++ (y :: C) := by simp
  have hidx := indexByDomain_map_some cur []
  generalize cur.foldl (fun m b => mapSet m b.Domain b) [] = idx at hidx
  have hget : mapGet (planDesired (A ++ x :: B) idx).2 y.Domain = none := by
    rw [← hxy]
    exact mapGet_after _ _ x (by simp)
  refine ⟨(planDesired (A ++ x :: B) idx).1,
    (planDesired C (planDesired (A ++ x :: B) idx).2).1 ++
      (ro.order (planDesired C (planDesired (A ++ x :: B) idx).2).2).map
        (fun e => Call.delete e.2.ID),
    (ro.order (planDesired (A ++ x :: B) idx).2).map (fun e => Call.delete e.2.ID),
    ?_, ?_, planDesired_no_delete _ _, ?_⟩
  · rw [syncInternalData_eq ro remote _ _ _ hread hidx,
      execCalls_all_ok remote hok, hsplit, planDesired_append,
      planDesired_cons_none _ _ _ hget]
    simp only [List.append_assoc, createCall, List.cons_append]
  · rw [syncInternalData_eq ro remote _ _ _ hread hidx, execCalls_all_ok remote hok]
  · intro c hc
    obtain ⟨e, -, rfl⟩ := List.mem_map.mp hc
    exact ⟨_, rfl⟩

/-- Witness of C19: `a.com` is desired twice and is in the current state; the
second occurrence gets a create. -/
theorem C19_repeated_domain_created_witness :
    ∃ pre post dels,
      syncInternalData RangeOrder.stored (Remote.answering exampleCurrent allOk)
          exampleRepeated =
        (pre ++ Call.create "a.com" "suspend" false false "" :: post, Outcome.ok) ∧
      syncInternalData RangeOrder.stored (Remote.answering exampleCurrent allOk)
          [⟨"", "a.com", "silence", false, false, ""⟩] =
        (pre ++ dels, Outcome.ok) ∧
      (∀ c ∈ pre, ∀ id, c ≠ Call.delete id) ∧
      (∀ c ∈ dels, ∃ id, c = Call.delete id) :=
  C19_repeated_domain_created RangeOrder.stored (Remote.answering exampleCurrent allOk)
    [] [] [] exampleCurrent ⟨"", "a.com", "silence", false, false, ""⟩
    ⟨"", "a.com", "suspend", false, false, ""⟩ rfl (fun _ => rfl) rfl

end mastodon

/-! ## Theorems: empty domain lists, untouched fields and output order -/

namespace data

theorem fixSeverity_frame (r : DomainBlock) :
    (fixSeverity r).RejectMedia = r.RejectMedia ∧
      (fixSeverity r).RejectReports = r.RejectReports ∧ (fixSeverity r).Reason = r.Reason := by
  unfold fixSeverity
  split_ifs <;> exact ⟨rfl, rfl, rfl⟩

theorem forall₂_map_right {α β : Type} (R : α → β → Prop) (f : α → β) (l : List α)
    (h : ∀ a ∈ l, R a (f a)) : List.Forall₂ R l (l.map f) := by
  induction l with
  | nil => exact List.Forall₂.nil
  | cons a l ih =>
    exact List.Forall₂.cons (h a (List.mem_cons_self _ _))
      (ih (fun x hx => h x (List.mem_cons_of_mem _ hx)))

/-- C16, empty-domain rule: on every list of rules, no rule in the output of
`Sanitize` has an empty domain list; the output of `Sanitize`, the flat blocks
`translateData` makes of it, and the calls and result of `SyncData` are the
same as for the input with the rules whose declared domain list is empty left
out.  So such a rule contributes no flat block and causes no call. -/
theorem C16_empty_domain_rule (ro : mastodon.RangeOrder) (remote : mastodon.Remote)
    (rules : List DomainBlock) :
    (∃ out : List DomainBlock,
      Sanitize ⟨rules.map some⟩ = some ⟨out.map some⟩ ∧ ∀ r ∈ out, r.Domains ≠ []) ∧
    Sanitize ⟨rules.map some⟩ =
      Sanitize ⟨(rules.filter (fun r => decide (r.Domains ≠ []))).map some⟩ ∧
    (Sanitize ⟨rules.map some⟩).bind mastodon.translateData =
      (Sanitize ⟨(rules.filter (fun r => decide (r.Domains ≠ []))).map some⟩).bind
        mastodon.translateData ∧
    mastodon.SyncData ro remote ⟨rules.map some⟩ =
      mastodon.SyncData ro remote
        ⟨(rules.filter (fun r => decide (r.Domains ≠ []))).map some⟩ := by
  have h : Sanitize ⟨rules.map some⟩ =
      Sanitize ⟨(rules.filter (fun r => decide (r.Domains ≠ []))).map some⟩ := by
    rw [Sanitize_rules, Sanitize_rules, List.filter_reverse, List.filter_reverse,
      List.filter_filter]
    simp
  refine ⟨⟨_, Sanitize_rules rules, ?_⟩, h, by rw [h], ?_⟩
  · intro r hr
    obtain ⟨x, hx, rfl⟩ := List.mem_map.mp hr
    rw [fixSeverity_domains]
    simpa using (List.mem_filter.mp hx).2
  · unfold mastodon.SyncData
    rw [h]

/-- C18, frame of `Sanitize`: on every list of rules `Sanitize` returns, and
its output lines up, one to one and in order, with the input rules that have a
non-empty declared domain list taken last declared first; each output rule
has the reject-media flag, the reject-reports flag and the reason of its input
rule (and the same domain list). -/
theorem C18_sanitize_frame (rules : List DomainBlock) :
    ∃ out : List DomainBlock, Sanitize ⟨rules.map some⟩ = some ⟨out.map some⟩ ∧
      List.Forall₂ (fun r o => o.Domains = r.Domains ∧ o.RejectMedia = r.RejectMedia ∧
          o.RejectReports = r.RejectReports ∧ o.Reason = r.Reason)
        (rules.reverse.filter (fun r => decide (r.Domains ≠ []))) out := by
  refine ⟨_, Sanitize_rules rules, ?_⟩
  apply forall₂_map_right
  intro r _
  exact ⟨fixSeverity_domains r, fixSeverity_frame r⟩

/-- C20, output order of `Sanitize`: on every list of rules, the output is the
retained rules (non-empty declared domain list, severity fixed) in the reverse
of their declaration order, and `Sanitize` of that output returns the same
rules in their declaration order. -/
theorem C20_output_order (rules : List DomainBlock) :
    ∃ out out2 : List DomainBlock, Sanitize ⟨rules.map some⟩ = some ⟨out.map some⟩ ∧
      out = ((rules.filter (fun r => decide (r.Domains ≠ []))).map fixSeverity).reverse ∧
      Sanitize ⟨out.map some⟩ = some ⟨out2.map some⟩ ∧
      out2 = (rules.filter (fun r => decide (r.Domains ≠ []))).map fixSeverity := by
  have h1 : (rules.reverse.filter (fun b => decide (b.Domains ≠ []))).map fixSeverity =
      ((rules.filter (fun r => decide (r.Domains ≠ []))).map fixSeverity).reverse := by
    rw [List.filter_reverse, List.map_reverse]
  have key : ((((rules.filter (fun b => decide (b.Domains ≠ []))).map
      fixSeverity).reverse.reverse.filter (fun b => decide (b.Domains ≠ []))).map fixSeverity) =
      ((rules.filter (fun b => decide (b.Domains ≠ []))).map fixSeverity) := by
    rw [List.reverse_reverse]
    apply retained_of_fixed
    intro y hy
    simp only [List.mem_map, List.mem_filter, decide_eq_true_eq] at hy
    obtain ⟨r, ⟨-, hr⟩, rfl⟩ := hy
    exact ⟨by rwa [fixSeverity_domains], fixSeverity_fixSeverity r⟩
  refine ⟨_, _, ?_, rfl, ?_, rfl⟩
  · rw [Sanitize_rules, h1]
  · rw [Sanitize_rules, key]

end data
